import Mathlib

/-!
Verification of the Newelle planning extension's markdown section/checklist
mutation engine (`newelle_planning.py`).

The Python code is shallowly embedded over `List Char` (named `Str` below):
every operation re-reads a whole document, transforms it as a pure string
function, and writes it back, so each operation is modelled as a pure
function on document contents, and the three-document store as a record of
`Option Str` fields.  Python string primitives (`strip`, `find`, `count`,
`split('\n')`, `re` patterns used by the code, `difflib.SequenceMatcher`)
are embedded one-to-one; similarity ratios are represented as exact
rationals (the quantities involved are small integer fractions, for which
Python's float comparisons agree with exact rational comparisons).
Whitespace and lowercasing are modelled at the ASCII level, which covers
every character class the code's documents use.
-/

namespace NewellePlanning

/-- Document contents, as a list of characters. -/
abbrev Str := List Char

/-- Python's `\s` / `str.strip` whitespace characters (ASCII range). -/
def isPySpace (c : Char) : Bool :=
  c = ' ' ∨ c = '\t' ∨ c = '\n' ∨ c = '\x0b' ∨ c = '\x0c' ∨ c = '\r'

/-- Python `str.lstrip()`. -/
def lstrip (s : Str) : Str := s.dropWhile isPySpace

/-- Python `str.rstrip()`. -/
def rstrip (s : Str) : Str := (s.reverse.dropWhile isPySpace).reverse

/-- The trailing whitespace run removed by `rstrip`. -/
def wsTail (s : Str) : Str := (s.reverse.takeWhile isPySpace).reverse

/-- Python `str.strip()`. -/
def pyStrip (s : Str) : Str := lstrip (rstrip s)

/-- Python `str.lower()` (ASCII letters; the code only lowercases plan text). -/
def lowerStr (s : Str) : Str := s.map Char.toLower

/-- Python `haystack.find(pat, start)`: least index `i ≥ start` at which `pat`
occurs, scanning left to right; `none` models Python's `-1`. -/
def findFromAux (pat : Str) : Nat → Str → Option Nat
  | o, s =>
    if pat.isPrefixOf s then some o
    else
      match s with
      | [] => none
      | _ :: rest => findFromAux pat (o + 1) rest

def findFrom (hay pat : Str) (start : Nat) : Option Nat :=
  if start ≤ hay.length then findFromAux pat start (hay.drop start) else none

/-- Python `pat in hay` (substring containment). -/
def containsSub (hay pat : Str) : Bool := (findFrom hay pat 0).isSome

/-- Python `s.count(pat)` for nonempty `pat`: number of non-overlapping
occurrences, scanning left to right and skipping `pat.length` after a hit.
Fuel-based structural recursion (each step consumes at least one character,
so fuel `s.length` is always sufficient for nonempty `pat`). -/
def pyCountFuel (pat : Str) : Nat → Str → Nat
  | 0, _ => 0
  | fuel + 1, s =>
    match s with
    | [] => 0
    | c :: rest =>
      if pat.isPrefixOf (c :: rest) then 1 + pyCountFuel pat fuel ((c :: rest).drop pat.length)
      else pyCountFuel pat fuel rest

def pyCount (pat : Str) (s : Str) : Nat :=
  if pat = [] then s.length + 1 else pyCountFuel pat s.length s

/-- Python `content.split('\n')`. -/
def splitNl : Str → List Str
  | [] => [[]]
  | c :: rest =>
    if c = '\n' then [] :: splitNl rest
    else
      match splitNl rest with
      | l :: ls => (c :: l) :: ls
      | [] => [[c]]

/-- Inverse of `splitNl`: join lines with `'\n'`. -/
def joinNl (ls : List Str) : Str := (ls.intersperse ['\n']).flatten

/-! ## difflib.SequenceMatcher (stdlib dependency of mark complete)

`difflib.SequenceMatcher(None, a, b).ratio()` as called by `mark_complete`.
With `isjunk = None` the junk set is empty; the "autojunk" heuristic applies
when `len(b) >= 200`: elements of `b` occurring more than `len(b)//100 + 1`
times are dropped from the index `b2j`.  Ratios are represented as exact
rationals: every ratio is `2*M/T` with `M, T` small integers, for which
Python's float comparisons against `0.8`, `0.9` and between candidate
scores coincide with exact rational comparisons. -/

/-- Indices of occurrences of `c` in `b`, ascending (difflib's `b2j` entry). -/
def positionsOf (b : Str) (c : Char) : List Nat :=
  (b.enum.filterMap fun p => if p.2 = c then some p.1 else none)

/-- difflib `__chain_b` with `isjunk = None`: positions index with autojunk. -/
def b2j (b : Str) (c : Char) : List Nat :=
  let ps := positionsOf b c
  if 200 ≤ b.length ∧ b.length / 100 + 1 < ps.length then [] else ps

/-- Lookup in the `j2len` association list, defaulting to 0 (`j2len.get(j-1, 0)`). -/
def j2get (m : List (Nat × Nat)) (j : Nat) : Nat :=
  match m.find? (fun p => p.1 = j) with
  | some p => p.2
  | none => 0

/-- Inner loop of `find_longest_match` over the position list of `a[i]`:
Python's `continue`/`break` on the ascending list equals filtering to
`blo ≤ j < bhi`; the best block is replaced only on strictly greater size,
so the first (smallest `i`, then smallest `j`) maximum is kept. -/
def flmInner (i : Nat) (js : List Nat) (blo bhi : Nat) (j2len : List (Nat × Nat)) :
    (Nat × Nat × Nat) → List (Nat × Nat) → ((Nat × Nat × Nat) × List (Nat × Nat))
  | best, newj2len =>
    match js with
    | [] => (best, newj2len)
    | j :: js' =>
      if blo ≤ j ∧ j < bhi then
        let k := (if j = 0 then 0 else j2get j2len (j - 1)) + 1
        let newj2len' := (j, k) :: newj2len
        -- Python's `i-k+1, j-k+1` (a run of length k ending at i, j always
        -- has i+1 ≥ k and j+1 ≥ k, so Nat subtraction is exact here)
        let best' := if best.2.2 < k then (i + 1 - k, j + 1 - k, k) else best
        flmInner i js' blo bhi j2len best' newj2len'
      else
        flmInner i js' blo bhi j2len best newj2len

/-- Outer loop of `find_longest_match` over `i ∈ [alo, ahi)`. -/
def flmOuter (a : Str) (bj : Char → List Nat) (blo bhi : Nat) :
    List Nat → (Nat × Nat × Nat) → List (Nat × Nat) → (Nat × Nat × Nat)
  | [], best, _ => best
  | i :: is, best, j2len =>
    let (best', newj2len) := flmInner i (bj (a.getD i 'a')) blo bhi j2len best []
    flmOuter a bj blo bhi is best' newj2len

/-- Backward extension loop of `find_longest_match` (the junk set is empty,
so `not isbjunk(...)` is always true and only these two loops can run).
Each iteration requires `alo < besti` and decrements `besti`, so fuel
`besti` is always sufficient. -/
def extendBack (a b : Str) (alo blo : Nat) : Nat → Nat → Nat → Nat → Nat × Nat × Nat
  | 0, besti, bestj, bestsize => (besti, bestj, bestsize)
  | fuel + 1, besti, bestj, bestsize =>
    if alo < besti ∧ blo < bestj ∧ a.getD (besti - 1) 'a' = b.getD (bestj - 1) 'b' then
      extendBack a b alo blo fuel (besti - 1) (bestj - 1) (bestsize + 1)
    else
      (besti, bestj, bestsize)

/-- Forward extension loop of `find_longest_match`.  Each iteration requires
`besti + bestsize < ahi`, so fuel `ahi` is always sufficient. -/
def extendFwd (a b : Str) (ahi bhi besti bestj : Nat) : Nat → Nat → Nat
  | 0, bestsize => bestsize
  | fuel + 1, bestsize =>
    if besti + bestsize < ahi ∧ bestj + bestsize < bhi ∧
        a.getD (besti + bestsize) 'a' = b.getD (bestj + bestsize) 'b' then
      extendFwd a b ahi bhi besti bestj fuel (bestsize + 1)
    else
      bestsize

/-- difflib `find_longest_match(alo, ahi, blo, bhi)`. -/
def findLongestMatch (a b : Str) (alo ahi blo bhi : Nat) : Nat × Nat × Nat :=
  let best := flmOuter a (b2j b) blo bhi (List.range' alo (ahi - alo)) (alo, blo, 0) []
  let back := extendBack a b alo blo best.1 best.1 best.2.1 best.2.2
  (back.1, back.2.1, extendFwd a b ahi bhi back.1 back.2.1 ahi back.2.2)

/-- Total size of all matching blocks (difflib `get_matching_blocks`, summed;
the final merge of adjacent blocks does not change the total).  Fuel-based
recursion; `ratioQ` supplies fuel exceeding the maximal recursion depth. -/
def matchTotal (a b : Str) : Nat → Nat → Nat → Nat → Nat → Nat
  | 0, _, _, _, _ => 0
  | fuel + 1, alo, ahi, blo, bhi =>
    let (i, j, k) := findLongestMatch a b alo ahi blo bhi
    if k = 0 then 0
    else k + matchTotal a b fuel alo i blo j + matchTotal a b fuel (i + k) ahi (j + k) bhi

/-- difflib `ratio()` as an exact rational: `2*M/T`, and `1` when both empty. -/
def ratioQ (a b : Str) : ℚ :=
  if a.length + b.length = 0 then 1
  else (2 * (matchTotal a b (a.length + b.length + 1) 0 a.length 0 b.length) : ℚ) /
    (a.length + b.length)

/-! ## mark_complete -/

/-- Match of `re.match(r'^\s*[-*]\s*\[ \]', line)`, returning the pieces
`(ws1, bullet, ws2, rest)` with `line = ws1 ++ [bullet] ++ ws2 ++ "[ ]" ++ rest`.
The greedy `\s*` runs are deterministic: each is followed by a literal that
is not a whitespace character, so backtracking can never shorten them. -/
def parseIncomplete (line : Str) : Option (Str × Char × Str × Str) :=
  let ws1 := line.takeWhile isPySpace
  match line.dropWhile isPySpace with
  | [] => none
  | b :: rest1 =>
    if b = '-' ∨ b = '*' then
      let ws2 := rest1.takeWhile isPySpace
      match rest1.dropWhile isPySpace with
      | '[' :: ' ' :: ']' :: rest => some (ws1, b, ws2, rest)
      | _ => none
    else none

/-- `is_incomplete_task(line)`. -/
def isIncompleteTask (line : Str) : Bool := (parseIncomplete line).isSome

/-- `re.sub(r'^\s*[-*]\s*\[ \]\s*', '', line).strip()`: the anchored prefix is
removed when it matches (the trailing `\s*` is then absorbed by `strip`),
otherwise `sub` leaves the line unchanged and only `strip` applies. -/
def taskText (line : Str) : Str :=
  match parseIncomplete line with
  | some (_, _, _, rest) => pyStrip rest
  | none => pyStrip line

/-- `re.sub(r'(\s*[-*]\s*)\[ \]', r'\1[x]', line, count=1)` on a line that
matched `is_incomplete_task`: the leftmost match is the leading
`ws1 bullet ws2` prefix, and only the bracket content changes. -/
def rewriteLine (line : Str) : Str :=
  match parseIncomplete line with
  | some (ws1, b, ws2, rest) => ws1 ++ b :: (ws2 ++ '[' :: 'x' :: ']' :: rest)
  | none => line

/-- Index of the first element satisfying `p` (the `for i, line in enumerate`
search loops of `mark_complete`). -/
def findFirstIdx (p : Str → Bool) : List Str → Option Nat
  | [] => none
  | l :: ls => if p l then some 0 else (findFirstIdx p ls).map (· + 1)

/-- The exact-match test of step 1: an incomplete task whose stripped text
equals `phase_or_item.strip()` (case-sensitive). -/
def isExactLine (poi : Str) (line : Str) : Bool :=
  match parseIncomplete line with
  | some (_, _, _, rest) => pyStrip rest = pyStrip poi
  | none => false

/-- Step 2–3 candidate scoring for one incomplete line (`target` is the
stripped, lowercased input): substring containment scores `0.9`, otherwise a
`SequenceMatcher` ratio above `0.8` scores that ratio. -/
def candLine (target : Str) (line : Str) : Option (ℚ × Str) :=
  match parseIncomplete line with
  | none => none
  | some (_, _, _, rest) =>
    let t := pyStrip rest
    let tl := lowerStr t
    if containsSub tl target then some (9/10, t)
    else if (4 : ℚ)/5 < ratioQ target tl then some (ratioQ target tl, t)
    else none

/-- The `candidates` list: `(index, score, task_text)` in document order. -/
def candsAux (target : Str) : Nat → List Str → List (Nat × ℚ × Str)
  | _, [] => []
  | i, l :: ls =>
    match candLine target l with
    | some (q, t) => (i, q, t) :: candsAux target (i + 1) ls
    | none => candsAux target (i + 1) ls

/-- Stable insertion (descending by score).  Python's `list.sort(key=...,
reverse=True)` is a stable descending sort; a stable sort is extensionally
unique, so it is embedded as stable insertion sort. -/
def insertDesc (c : Nat × ℚ × Str) : List (Nat × ℚ × Str) → List (Nat × ℚ × Str)
  | [] => [c]
  | d :: ds => if d.2.1 ≤ c.2.1 then c :: d :: ds else d :: insertDesc c ds

def sortDesc : List (Nat × ℚ × Str) → List (Nat × ℚ × Str)
  | [] => []
  | c :: cs => insertDesc c (sortDesc cs)

/-- The index selected by `mark_complete` (content as a list of lines):
exact match first in document order, otherwise the head of the candidate
list sorted by score descending. -/
def markCompleteIdx (lines : List Str) (poi : Str) : Option Nat :=
  match findFirstIdx (isExactLine poi) lines with
  | some i => some i
  | none =>
    match sortDesc (candsAux (lowerStr (pyStrip poi)) 0 lines) with
    | [] => none
    | c :: _ => some c.1

/-- `mark_complete` on the plan's lines: `none` models the not-found branch
(no write); otherwise the rewritten lines and the matched display text. -/
def markCompleteLines (lines : List Str) (poi : Str) : Option (List Str × Str) :=
  match markCompleteIdx lines poi with
  | none => none
  | some i => some (lines.set i (rewriteLine (lines.getD i [])), taskText (lines.getD i []))

/-- `mark_complete` as a whole-document transform (readlines/writelines keep
line terminators, so splitting on `'\n'` and re-joining is exact). -/
def markCompleteText (content : Str) (poi : Str) : Option (Str × Str) :=
  (markCompleteLines (splitNl content) poi).map fun r => (joinNl r.1, r.2)

/-! ## _parse_todos_from_plan and _get_planning_data -/

/-- Shared tail of the regexes `^###\s+(.+)$` and `^-\s+\[([ x])\]\s+(.+)$`:
`\s+(.+)$` matches exactly when the remainder starts with a whitespace
character and has at least two characters (greedy `\s+` backtracks one
character when nothing is left for `.+`, making the captured text the final
whitespace character in that case). -/
def tailText (rest : Str) : Option Str :=
  match rest with
  | c :: _ :: _ =>
    if isPySpace c then
      some (let t := rest.dropWhile isPySpace
            if t = [] then [rest.getLastD 'a'] else t)
    else none
  | _ => none

/-- `re.match(r'^###\s+(.+)$', line)`, returning the captured phase title. -/
def parsePhaseLine (line : Str) : Option Str :=
  match line with
  | '#' :: '#' :: '#' :: rest => tailText rest
  | _ => none

/-- `re.match(r'^-\s+\[([ x])\]\s+(.+)$', line)`:
`(completed, text)` when the line parses as a checklist item. -/
def parseTodoLine (line : Str) : Option (Bool × Str) :=
  match line with
  | '-' :: rest =>
    match rest.dropWhile isPySpace with
    | '[' :: m :: ']' :: rest2 =>
      if (rest.takeWhile isPySpace) ≠ [] ∧ (m = ' ' ∨ m = 'x') then
        (tailText rest2).map fun t => (m = 'x', t)
      else none
    | _ => none
  | _ => none

/-- One parsed todo: display text, completion flag, owning phase. -/
def parseTodosAux : List Str → Option Str → List (Str × Bool × Option Str)
  | [], _ => []
  | line :: rest, cur =>
    let cur' := match parsePhaseLine line with
      | some p => some p
      | none => cur
    match parseTodoLine line with
    | some (comp, txt) => (txt, comp, cur') :: parseTodosAux rest cur'
    | none => parseTodosAux rest cur'

/-- `_parse_todos_from_plan(content)`. -/
def parseTodosFromPlan (content : Str) : List (Str × Bool × Option Str) :=
  parseTodosAux (splitNl content) none

/-- The completion/total/error counters computed by `_get_planning_data`. -/
structure StatusData where
  completed : Nat
  total : Nat
  errors : Nat
deriving DecidableEq, Repr

def statusOf (content : Str) : StatusData :=
  let ts := parseTodosFromPlan content
  { completed := (ts.filter fun t => t.2.1).length
    total := ts.length
    errors := pyCount ("### Error at".data) content }

/-! ## Templates and create_plan

Timestamps come from `datetime.now()` (glue outside the core); they are
passed as an explicit `date` parameter here. -/

def defaultPhases : Str :=
  ("### Phase 1: Planning\n- [ ] Define requirements\n- [ ] Identify dependencies\n- [ ] Create initial plan\n").data

/-- One block of the `else` loop in `create_plan`: `f"### Phase {i}: {phase}\n- [ ] \n\n"`. -/
def phaseBlock (i : Nat) (p : Str) : Str :=
  ("### Phase ").data ++ (Nat.repr i).data ++ (": ").data ++ p ++ ("\n- [ ] \n\n").data

/-- `phases_content` in `create_plan`. -/
def phasesContent (phases : List Str) : Str :=
  if phases.isEmpty then defaultPhases
  else pyStrip (phases.enum.map (fun p => phaseBlock (p.1 + 1) p.2)).flatten

/-- `TASK_PLAN_TEMPLATE.format(...)`. -/
def taskPlanContent (taskName date objective : Str) (phases : List Str) : Str :=
  ("# Task Plan: ").data ++ taskName ++
  ("\nCreated: ").data ++ date ++
  ("\nStatus: In Progress\n\n## Objective\n").data ++ objective ++
  ("\n\n## Phases\n").data ++ phasesContent phases ++
  ("\n\n## Decisions\n<!-- Record key decisions here -->\n\n## Error Log\n<!-- Log any errors or failed attempts here -->\n\n## Notes\n<!-- Additional notes and observations -->\n").data

/-- `FINDINGS_TEMPLATE.format(...)`. -/
def findingsContent (taskName date : Str) : Str :=
  ("# Findings: ").data ++ taskName ++
  ("\nCreated: ").data ++ date ++
  ("\n\n## Research Notes\n<!-- Store research and findings here instead of context -->\n\n## Technical Decisions\n<!-- Record technical choices and rationale -->\n\n## Key Discoveries\n\n## References\n\n## Code Snippets\n<!-- Important code patterns found -->\n").data

/-- `PROGRESS_TEMPLATE.format(...)`. -/
def progressContent (taskName date : Str) : Str :=
  ("# Progress Log: ").data ++ taskName ++
  ("\nCreated: ").data ++ date ++
  ("\n\n## Status Check\n<!-- 5-Question Check when resuming -->\n1. What is the current specific goal?\n2. What has been done so far?\n3. What is the immediate next step?\n4. What information is missing?\n5. Are there any errors or blockers?\n\n## Session Log\n\n### ").data ++ date ++
  ("\n- Started task\n- Created planning files\n\n## Test Results\n<!-- Document test outcomes here -->\n| Test | Result | Notes |\n|------|--------|-------|\n\n## Next Steps\n").data

/-! ## read_plan / read_findings -/

/-- `_truncate(text)` with the configured maximum (`max_plan_length or 4000`
is settings glue; the limit is passed in). -/
def pyTruncate (maxlength : Nat) (text : Str) : Str :=
  if maxlength < text.length then
    text.take maxlength ++ ("\n... (truncated to ").data ++ (Nat.repr maxlength).data ++
      (" characters)").data
  else text

def noPlanMsg : Str := ("⚠️ No task_plan.md found. Use create_plan to start.").data
def endOfFileMsg : Str := ("⚠️ End of file reached.").data

/-- `read_plan(start_char)` given whether `task_plan.md` exists and its
content.  `start_char` is compared against the length only when positive. -/
def readPlanPure (exists_ : Bool) (content : Str) (startChar maxlength : Nat) : Str :=
  if exists_ = false then noPlanMsg
  else if 0 < startChar then
    if content.length ≤ startChar then endOfFileMsg
    else pyTruncate maxlength (content.drop startChar)
  else pyTruncate maxlength content

/-- `read_findings(start_char)` (same body, different sentinel). -/
def readFindingsPure (exists_ : Bool) (content : Str) (startChar maxlength : Nat) : Str :=
  if exists_ = false then ("⚠️ No findings.md found.").data
  else if 0 < startChar then
    if content.length ≤ startChar then endOfFileMsg
    else pyTruncate maxlength (content.drop startChar)
  else pyTruncate maxlength content

/-! ## update_plan -/

/-- `f"## {section}"`. -/
def sectionMarker (sec : Str) : Str := ("## ").data ++ sec

/-- `update_plan(section, content)` on the plan text: the boolean is `true`
for the "updated existing section" branch, `false` for "added new section". -/
def updatePlan (plan : Str) (sec content : Str) : Str × Bool :=
  match findFrom plan (sectionMarker sec) 0 with
  | some idx =>
    match findFrom plan ("\n## ").data (idx + (sectionMarker sec).length) with
    | none => (plan.take (idx + (sectionMarker sec).length) ++ '\n' :: content ++ ['\n'], true)
    | some ns =>
      (plan.take (idx + (sectionMarker sec).length) ++ '\n' :: content ++
        '\n' :: plan.drop ns, true)
  | none => (rstrip plan ++ ("\n\n## ").data ++ sec ++ '\n' :: content ++ ['\n'], false)

/-! ## add_todo -/

/-- Does `^###\s+.*{re.escape(ph)}` (IGNORECASE) match starting at this
line start?  `\s+` may cross newlines; `.*` may not.  A match exists iff the
text after `###` starts with a whitespace character and the (lowercased)
phase occurs at some position `q` with `1 ≤ q ≤ w + d`, where `w` is the
leading whitespace run and `d` the following newline-free run: for `q ≤ w`
take `\s+` of length `q`, else `\s+` of length `w` and `.*` over `[w, q)`. -/
def lineMatchAux (rest ph : Str) : Bool :=
  let w := (rest.takeWhile isPySpace).length
  let d := ((rest.drop w).takeWhile fun c => c ≠ '\n').length
  decide (1 ≤ w) &&
    (List.range' 1 (w + d)).any fun q => (lowerStr ph).isPrefixOf (lowerStr (rest.drop q))

def lineMatch (s ph : Str) : Bool :=
  match s with
  | '#' :: '#' :: '#' :: rest => lineMatchAux rest ph
  | _ => false

/-- `re.search` position for the MULTILINE pattern: the earliest line start
(offset 0 or just after a `'\n'`) where the pattern matches.  Each step
advances past at least one character, so fuel `content.length + 1` is
always sufficient. -/
def fuzzyPhaseFuel (ph : Str) : Nat → Nat → Str → Option Nat
  | 0, _, _ => none
  | fuel + 1, o, s =>
    if lineMatch s ph then some o
    else
      match s.drop ((s.takeWhile fun c => c ≠ '\n').length) with
      | [] => none
      | _ :: rest =>
        fuzzyPhaseFuel ph fuel (o + (s.takeWhile fun c => c ≠ '\n').length + 1) rest

def fuzzyPhasePos (content ph : Str) : Option Nat :=
  fuzzyPhaseFuel ph (content.length + 1) 0 content

/-- `f"- [ ] {item}"`. -/
def newItemStr (item : Str) : Str := ("- [ ] ").data ++ item

/-- `f"### {phase}"`. -/
def phaseMarker (ph : Str) : Str := ("### ").data ++ ph

/-- `min(p for p in [notes_pos, error_pos, len(content)] if p > 0)`'s
candidate list: `-1` (absent) and position 0 are both filtered out by
`p > 0`. -/
def noPhaseCands (content : Str) : List Nat :=
  (((findFrom content (("## Notes").data) 0).toList ++
    (findFrom content (("## Error Log").data) 0).toList) ++ [content.length]).filter (0 < ·)

/-- The insertion point inside a found phase: the earlier of the next
`"\n###"` and the next `"\n## "` after it, defaulting to document end. -/
def insertPosAfterPhase (content : Str) (ps : Nat) : Nat :=
  match (findFrom content ("\n###").data (ps + 1)).toList ++
      (findFrom content ("\n## ").data (ps + 1)).toList with
  | [] => content.length
  | p :: ps' => ps'.foldl min p

/-- The phase-heading position used by `add_todo`: the literal substring
`### {phase}` first, else the `^###\s+.*{phase}` regex search. -/
def phaseStartPos (content ph : Str) : Option Nat :=
  match findFrom content (phaseMarker ph) 0 with
  | some i => some i
  | none => fuzzyPhasePos content ph

/-- The `else` (no truthy phase) branch of `add_todo`.  `none` models the
exception branch (`min` over an empty sequence raises, the error is caught,
and nothing is written). -/
def addTodoNoPhase (content : Str) (item : Str) : Option Str :=
  if containsSub content (("## Phases").data) then
    match noPhaseCands content with
    | [] => none
    | c :: cs =>
      some (rstrip (content.take (cs.foldl min c)) ++ '\n' :: newItemStr item ++
        '\n' :: '\n' :: content.drop (cs.foldl min c))
  else some (rstrip content ++ ("\n\n## Tasks\n").data ++ newItemStr item ++ ['\n'])

/-- `add_todo(item, phase)` on the plan text.  A `phase` of `none` or `""`
is falsy in Python and takes the no-phase branch. -/
def addTodo (content : Str) (item : Str) (phase : Option Str) : Option Str :=
  match phase with
  | some ph =>
    if ph = [] then addTodoNoPhase content item
    else
      match phaseStartPos content ph with
      | some ps =>
        some (rstrip (content.take (insertPosAfterPhase content ps)) ++
          '\n' :: newItemStr item ++ '\n' :: content.drop (insertPosAfterPhase content ps))
      | none =>
        some (rstrip content ++ ("\n\n### ").data ++ ph ++ '\n' :: newItemStr item ++ ['\n'])
  | none => addTodoNoPhase content item

/-! ## save_finding / log_progress / log_error -/

/-- The `new_finding` string of `save_finding`. -/
def newFinding (title content ts : Str) : Str :=
  '\n' :: ("### ").data ++ title ++ '\n' :: '*' :: ts ++ ("*\n\n").data ++ content ++ ['\n']

/-- `save_finding` on the findings text (auto-creation handled at the store level). -/
def saveFinding (findings : Str) (title content cat ts : Str) : Str :=
  match findFrom findings (sectionMarker cat) 0 with
  | some idx =>
    match findFrom findings ("\n## ").data (idx + (sectionMarker cat).length) with
    | none => rstrip findings ++ newFinding title content ts
    | some nh =>
      rstrip (findings.take nh) ++ newFinding title content ts ++ '\n' :: findings.drop nh
  | none => rstrip findings ++ ("\n\n## ").data ++ cat ++ newFinding title content ts

/-- The `new_entry` bullet of `log_progress`. -/
def progressEntry (entry ts : Str) (includeTs : Bool) : Str :=
  ("- ").data ++ (if includeTs then '[' :: ts ++ ("] ").data else []) ++ entry

/-- `log_progress` on the progress text. -/
def logProgress (progress : Str) (entry : Str) (ts : Str) (includeTs : Bool) : Str :=
  match findFrom progress ("## Session Log").data 0 with
  | some idx =>
    progress.take (idx + ("## Session Log").data.length) ++
      '\n' :: progressEntry entry ts includeTs ++
      progress.drop (idx + ("## Session Log").data.length)
  | none =>
    rstrip progress ++ ("\n\n## Session Log\n").data ++ progressEntry entry ts includeTs ++ ['\n']

/-- The `error_entry` string of `log_error` (`context` empty is falsy). -/
def errorEntry (ts err ctx : Str) : Str :=
  '\n' :: ("### Error at ").data ++ ts ++ '\n' :: ("**Error:** ").data ++ err ++ ['\n'] ++
  (if ctx = [] then [] else ("**Context:** ").data ++ ctx ++ ['\n'])

/-- `log_error` on the plan text. -/
def logErrorPlan (plan : Str) (ts err ctx : Str) : Str :=
  match findFrom plan ("## Error Log").data 0 with
  | some idx =>
    match findFrom plan ("\n## ").data (idx + ("## Error Log").data.length) with
    | none => rstrip plan ++ errorEntry ts err ctx
    | some nh =>
      rstrip (plan.take nh) ++ errorEntry ts err ctx ++ '\n' :: plan.drop nh
  | none => rstrip plan ++ ("\n\n## Error Log").data ++ errorEntry ts err ctx

/-! ## The three-document store

Each operation re-reads its document from disk, transforms it in memory and
performs one replacing write, so the whole store is a record of optional
contents (`none` = file absent) and each public operation a pure function
`Store → Store × message`. -/

structure Store where
  plan : Option Str
  findings : Option Str
  progress : Option Str
deriving DecidableEq, Repr

def noPlanShortMsg : Str := ("⚠️ No task_plan.md found.").data

/-- `create_plan`: writes all three documents unconditionally. -/
def createPlanOp (_s : Store) (taskName objective : Str) (phases : List Str) (date : Str) :
    Store × Str :=
  ({ plan := some (taskPlanContent taskName date objective phases)
     findings := some (findingsContent taskName date)
     progress := some (progressContent taskName date) },
   ("✅ Created planning files").data)

/-- `read_plan`. -/
def readPlanOp (s : Store) (startChar maxlength : Nat) : Store × Str :=
  (s, match s.plan with
      | none => noPlanMsg
      | some c => readPlanPure true c startChar maxlength)

/-- `read_findings`. -/
def readFindingsOp (s : Store) (startChar maxlength : Nat) : Store × Str :=
  (s, match s.findings with
      | none => ("⚠️ No findings.md found.").data
      | some c => readFindingsPure true c startChar maxlength)

/-- `update_plan`. -/
def updatePlanOp (s : Store) (sec content : Str) : Store × Str :=
  match s.plan with
  | none => (s, noPlanShortMsg)
  | some p =>
    let r := updatePlan p sec content
    ({ s with plan := some r.1 },
     if r.2 then ("✅ Updated section '").data ++ sec ++ ['\'']
     else ("✅ Added new section '").data ++ sec ++ ['\''])

/-- `mark_complete`. -/
def markCompleteOp (s : Store) (poi : Str) : Store × Str :=
  match s.plan with
  | none => (s, noPlanShortMsg)
  | some p =>
    match markCompleteText p poi with
    | none => (s, ("⚠️ Item '").data ++ poi ++ ("' not found (or already completed)").data)
    | some (p', txt) =>
      ({ s with plan := some p' }, ("✅ Marked as complete: ").data ++ txt)

/-- `add_todo`. -/
def addTodoOp (s : Store) (item : Str) (phase : Option Str) : Store × Str :=
  match s.plan with
  | none => (s, noPlanShortMsg)
  | some p =>
    match addTodo p item phase with
    | none => (s, ("❌ Error").data)
    | some p' => ({ s with plan := some p' }, ("✅ Added todo: ").data ++ item)

/-- `save_finding`: auto-creates `findings.md` from its template if absent. -/
def saveFindingOp (s : Store) (title content cat ts : Str) : Store × Str :=
  let base := match s.findings with
    | none => findingsContent ("Task").data ts
    | some f => f
  ({ s with findings := some (saveFinding base title content cat ts) },
   ("✅ Saved finding: '").data ++ title ++ ['\''])

/-- `log_progress`: auto-creates `progress.md` from its template if absent. -/
def logProgressOp (s : Store) (entry : Str) (ts : Str) (includeTs : Bool) : Store × Str :=
  let base := match s.progress with
    | none => progressContent ("Task").data ts
    | some p => p
  ({ s with progress := some (logProgress base entry ts includeTs) },
   ("✅ Logged: ").data ++ entry)

/-- `log_error`: mutates the plan, then calls `log_progress("ERROR: {error}")`. -/
def logErrorOp (s : Store) (err ctx : Str) (ts : Str) : Store × Str :=
  match s.plan with
  | none => (s, noPlanShortMsg)
  | some p =>
    let s1 : Store := { s with plan := some (logErrorPlan p ts err ctx) }
    let s2 := (logProgressOp s1 (("ERROR: ").data ++ err) ts true).1
    (s2, ("⚠️ Logged error: ").data ++ err)

/-- `get_status` (the message is rendered from these counters; the
`exists` branch is what matters for the document lifecycle). -/
def getStatusOp (s : Store) : Store × Str :=
  (s, match s.plan with
      | none => ("📋 No active planning session. Use create_plan to start.").data
      | some p => ("📋 Progress: ").data ++ (Nat.repr (statusOf p).completed).data ++
          ['/'] ++ (Nat.repr (statusOf p).total).data)

/-- `check_plan_integrity` (absent-plan branch). -/
def checkIntegrityOp (s : Store) : Store × Str :=
  (s, match s.plan with
      | none => ("⚠️ No plan found.").data
      | some _ => ("(integrity report)").data)

/-! ## Claim-level notions

Position-indexed reformulations of the resolution steps of `mark_complete`,
used to state the specification claims. -/

/-- Line `i` is a currently-unchecked item whose trimmed text equals the
trimmed target, case-sensitively (resolution step 1 of the spec). -/
def exactAt (lines : List Str) (poi : Str) (i : Nat) : Prop :=
  ∃ line, lines[i]? = some line ∧ isExactLine poi line = true

/-- The step 2–3 score of line `i` (`0.9` for a lower-cased substring hit,
a similarity ratio above `0.8` otherwise, `none` if not a candidate). -/
def lineScore (lines : List Str) (poi : Str) (i : Nat) : Option ℚ :=
  lines[i]?.bind fun line => (candLine (lowerStr (pyStrip poi)) line).map Prod.fst

/-! ## The documented create/add/mark/status scenario

`create_plan("Refactor", "Speed up parser", ["Investigate","Implement"])`,
then `add_todo("Profile hotspots","Investigate")`, then
`mark_complete("Profile hotspots")`, then `get_status()`.  Timestamps are
irrelevant to the scenario; a fixed date string is used. -/

def scenarioDate : Str := ("2024-01-01 12:00").data

def scenarioPlan0 : Str :=
  taskPlanContent (("Refactor").data) scenarioDate (("Speed up parser").data)
    [("Investigate").data, ("Implement").data]

def scenarioPlan1 : Option Str :=
  addTodo scenarioPlan0 (("Profile hotspots").data) (some (("Investigate").data))

def scenarioPlan2 : Option Str :=
  scenarioPlan1.bind fun p =>
    (markCompleteText p (("Profile hotspots").data)).map Prod.fst

/-- No occurrence of `pat` starts inside `a` and ends inside `b`. -/
def NoSpan (pat a b : Str) : Prop :=
  ∀ i, i < a.length → a.length < i + pat.length →
    pat.isPrefixOf (a.drop i ++ b) = false

/-! ## Helper lemmas: lines -/

theorem joinNl_cons_cons (a b : Str) (ls : List Str) :
    joinNl (a :: b :: ls) = a ++ '\n' :: joinNl (b :: ls) := by
  induction ls with
  | nil => simp [joinNl, List.intersperse]
  | cons c ls _ => simp [joinNl, List.intersperse]

theorem splitNl_ne_nil (s : Str) : splitNl s ≠ [] := by
  cases s with
  | nil => simp [splitNl]
  | cons c rest =>
    simp only [splitNl]
    split
    · simp
    · split <;> simp

theorem splitNl_joinNl (s : Str) : joinNl (splitNl s) = s := by
  induction s with
  | nil => rfl
  | cons c rest ih =>
    cases hs : splitNl rest with
    | nil => exact absurd hs (splitNl_ne_nil rest)
    | cons l ls =>
      rw [hs] at ih
      by_cases h : c = '\n'
      · subst h
        simp only [splitNl, hs, reduceIte]
        rw [joinNl_cons_cons, ih]
        rfl
      · simp only [splitNl, if_neg h, hs]
        cases ls with
        | nil => simpa [joinNl, List.intersperse] using congrArg (c :: ·) ih
        | cons l2 ls2 =>
          rw [joinNl_cons_cons]
          rw [joinNl_cons_cons] at ih
          rw [List.cons_append, ih]

/-! ## Helper lemmas: the mark_complete search loops -/

theorem findFirstIdx_eq_none_iff {p : Str → Bool} {ls : List Str} :
    findFirstIdx p ls = none ↔ ∀ l ∈ ls, p l = false := by
  induction ls with
  | nil => simp [findFirstIdx]
  | cons x xs ih =>
    cases hx : p x with
    | true => simp [findFirstIdx, hx]
    | false => simp [findFirstIdx, hx, ih, List.forall_mem_cons]

theorem findFirstIdx_eq_some_iff {p : Str → Bool} {ls : List Str} {i : Nat} :
    findFirstIdx p ls = some i ↔
      (∃ l, ls[i]? = some l ∧ p l = true) ∧
        ∀ j, j < i → ∀ l, ls[j]? = some l → p l = false := by
  induction ls generalizing i with
  | nil => simp [findFirstIdx]
  | cons x xs ih =>
    simp only [findFirstIdx]
    cases hx : p x with
    | true =>
      simp only [hx, if_true]
      constructor
      · rintro h
        cases h
        exact ⟨⟨x, by simp, hx⟩, fun j hj => absurd hj (Nat.not_lt_zero j)⟩
      · rintro ⟨⟨l, hl, hpl⟩, hfirst⟩
        cases i with
        | zero => rfl
        | succ i' =>
          exfalso
          have := hfirst 0 (Nat.succ_pos _) x (by simp)
          simp [hx] at this
    | false =>
      simp only [hx, Bool.false_eq_true, if_false]
      constructor
      · intro h
        rcases Option.map_eq_some'.mp h with ⟨i', hi', rfl⟩
        rcases ih.mp hi' with ⟨⟨l, hl, hpl⟩, hfirst⟩
        refine ⟨⟨l, by simpa using hl, hpl⟩, ?_⟩
        intro j hj l' hl'
        cases j with
        | zero =>
          simp only [List.getElem?_cons_zero, Option.some_inj] at hl'
          subst hl'
          exact hx
        | succ j' =>
          exact hfirst j' (by omega) l' (by simpa using hl')
      · rintro ⟨⟨l, hl, hpl⟩, hfirst⟩
        cases i with
        | zero =>
          simp only [List.getElem?_cons_zero, Option.some_inj] at hl
          subst hl
          rw [hx] at hpl
          cases hpl
        | succ i' =>
          have : findFirstIdx p xs = some i' := by
            refine ih.mpr ⟨⟨l, by simpa using hl, hpl⟩, ?_⟩
            intro j hj l' hl'
            exact hfirst (j + 1) (by omega) l' (by simpa using hl')
          simp [this]

theorem candsAux_mem_iff {target : Str} {n : Nat} {ls : List Str} {c : Nat × ℚ × Str} :
    c ∈ candsAux target n ls ↔
      ∃ j line, ls[j]? = some line ∧ c.1 = n + j ∧ candLine target line = some (c.2.1, c.2.2) := by
  induction ls generalizing n with
  | nil => simp [candsAux]
  | cons x xs ih =>
    simp only [candsAux]
    cases hx : candLine target x with
    | none =>
      rw [ih]
      constructor
      · rintro ⟨j, line, hline, hc, hcand⟩
        exact ⟨j + 1, line, by simpa using hline, by omega, hcand⟩
      · rintro ⟨j, line, hline, hc, hcand⟩
        cases j with
        | zero =>
          simp only [List.getElem?_cons_zero, Option.some_inj] at hline
          subst hline
          rw [hx] at hcand
          cases hcand
        | succ j' =>
          exact ⟨j', line, by simpa using hline, by omega, hcand⟩
    | some qt =>
      obtain ⟨q, t⟩ := qt
      simp only [List.mem_cons, ih]
      constructor
      · rintro (rfl | ⟨j, line, hline, hc, hcand⟩)
        · exact ⟨0, x, by simp, by omega, by simpa using hx⟩
        · exact ⟨j + 1, line, by simpa using hline, by omega, hcand⟩
      · rintro ⟨j, line, hline, hc, hcand⟩
        cases j with
        | zero =>
          simp only [List.getElem?_cons_zero, Option.some_inj] at hline
          subst hline
          rw [hx] at hcand
          left
          obtain ⟨c1, c2, c3⟩ := c
          simp only [Option.some_inj, Prod.mk.injEq] at hcand
          simp only [Prod.mk.injEq]
          exact ⟨by omega, hcand.1.symm, hcand.2.symm⟩
        | succ j' =>
          exact Or.inr ⟨j', line, by simpa using hline, by omega, hcand⟩

theorem candsAux_pairwise (target : Str) (n : Nat) (ls : List Str) :
    (candsAux target n ls).Pairwise fun a b => a.1 < b.1 := by
  induction ls generalizing n with
  | nil => exact List.Pairwise.nil
  | cons x xs ih =>
    simp only [candsAux]
    cases hx : candLine target x with
    | none => exact ih _
    | some qt =>
      refine List.Pairwise.cons ?_ (ih (n + 1))
      intro b hb
      rcases candsAux_mem_iff.mp hb with ⟨j, line, _, hb1, _⟩
      simp only [hb1]
      omega

theorem candsAux_eq_nil_iff {target : Str} {n : Nat} {ls : List Str} :
    candsAux target n ls = [] ↔ ∀ l ∈ ls, candLine target l = none := by
  induction ls generalizing n with
  | nil => simp [candsAux]
  | cons x xs ih =>
    simp only [candsAux]
    cases hx : candLine target x with
    | none =>
      rw [ih]
      constructor
      · intro h l hl
        rcases List.mem_cons.mp hl with rfl | hl
        · exact hx
        · exact h l hl
      · intro h l hl
        exact h l (List.mem_cons_of_mem x hl)
    | some qt =>
      obtain ⟨q, t⟩ := qt
      constructor
      · intro h
        cases h
      · intro h
        have := h x (List.mem_cons_self x xs)
        rw [hx] at this
        cases this

/-! ## Helper lemmas: stable descending sort -/

theorem insertDesc_ne_nil (c : Nat × ℚ × Str) (l : List (Nat × ℚ × Str)) :
    insertDesc c l ≠ [] := by
  cases l with
  | nil => simp [insertDesc]
  | cons d ds =>
    simp only [insertDesc]
    split <;> simp

theorem sortDesc_eq_nil_iff {l : List (Nat × ℚ × Str)} : sortDesc l = [] ↔ l = [] := by
  cases l with
  | nil => simp [sortDesc]
  | cons c cs => simp [sortDesc, insertDesc_ne_nil]

theorem sortDesc_head_first_max (l : List (Nat × ℚ × Str)) (hne : l ≠ []) :
    ∃ c pre post, (sortDesc l).head? = some c ∧ l = pre ++ c :: post ∧
      (∀ d ∈ pre, d.2.1 < c.2.1) ∧ (∀ d ∈ post, d.2.1 ≤ c.2.1) := by
  induction l with
  | nil => exact absurd rfl hne
  | cons x xs ih =>
    cases hxs : xs with
    | nil =>
      exact ⟨x, [], [], by simp [sortDesc, insertDesc], by simp, by simp, by simp⟩
    | cons y ys =>
      rw [← hxs]
      have hxs_ne : xs ≠ [] := by rw [hxs]; simp
      obtain ⟨m, pre, post, hhead, hdecomp, hpre, hpost⟩ := ih hxs_ne
      have hsort_ne : sortDesc xs ≠ [] := fun h => hxs_ne (sortDesc_eq_nil_iff.mp h)
      obtain ⟨rest, hrest⟩ : ∃ rest, sortDesc xs = m :: rest := by
        cases hs : sortDesc xs with
        | nil => exact absurd hs hsort_ne
        | cons a as =>
          rw [hs] at hhead
          cases hhead
          exact ⟨as, rfl⟩
      by_cases hcmp : m.2.1 ≤ x.2.1
      · refine ⟨x, [], xs, ?_, by simp, by simp, ?_⟩
        · simp only [sortDesc, hrest, insertDesc, if_pos hcmp, List.head?_cons]
        · intro d hd
          rw [hdecomp] at hd
          rcases List.mem_append.mp hd with hd | hd
          · exact le_of_lt (lt_of_lt_of_le (hpre d hd) hcmp)
          · rcases List.mem_cons.mp hd with rfl | hd
            · exact hcmp
            · exact le_trans (hpost d hd) hcmp
      · refine ⟨m, x :: pre, post, ?_, by simp [hdecomp], ?_, hpost⟩
        · simp only [sortDesc, hrest, insertDesc, if_neg hcmp, List.head?_cons]
        · intro d hd
          rcases List.mem_cons.mp hd with rfl | hd
          · exact lt_of_not_le hcmp
          · exact hpre d hd

theorem exact_none_iff {lines : List Str} {poi : Str} :
    findFirstIdx (isExactLine poi) lines = none ↔ ∀ i, ¬ exactAt lines poi i := by
  rw [findFirstIdx_eq_none_iff]
  constructor
  · rintro h i ⟨line, hline, hex⟩
    have hmem : line ∈ lines := by
      rcases List.getElem?_eq_some.mp hline with ⟨hlt, hget⟩
      exact hget ▸ List.getElem_mem hlt
    rw [h line hmem] at hex
    cases hex
  · intro h l hl
    rcases List.mem_iff_getElem?.mp hl with ⟨i, hi⟩
    cases hex : isExactLine poi l with
    | false => rfl
    | true => exact absurd ⟨l, hi, hex⟩ (h i)

theorem lineScore_eq_some_iff {lines : List Str} {poi : Str} {j : Nat} {s : ℚ} :
    lineScore lines poi j = some s ↔
      ∃ t, (j, s, t) ∈ candsAux (lowerStr (pyStrip poi)) 0 lines := by
  constructor
  · intro h
    unfold lineScore at h
    rcases Option.bind_eq_some.mp h with ⟨line, hline, hmap⟩
    rcases Option.map_eq_some'.mp hmap with ⟨⟨q, t⟩, hcand, hq⟩
    cases hq
    exact ⟨t, candsAux_mem_iff.mpr ⟨j, line, hline, by omega, hcand⟩⟩
  · rintro ⟨t, hmem⟩
    rcases candsAux_mem_iff.mp hmem with ⟨j', line, hline, hj, hcand⟩
    simp only at hj hcand
    have : j' = j := by omega
    subst this
    simp [lineScore, hline, hcand]

/-! ## C1 -/

/-- C1: `mark_complete` considers only currently-unchecked checklist lines
and resolves in order: (1) it selects the first unchecked item in document
order whose trimmed text equals the trimmed target case-sensitively;
otherwise candidates are scored (0.9 for a lower-cased substring hit —
step 2 — and the similarity ratio when it exceeds 0.8 — step 3, both
embodied in `lineScore`), and (4) the highest-scoring candidate wins with
ties broken by earliest document order; (5) with no candidate the result is
not-found.  In particular, on unchecked items `["Fix bug", "Fix bug in
parser"]` the target `"Fix bug"` selects the first by exact match. -/
theorem c1_mark_complete_resolution :
    (∀ (lines : List Str) (poi : Str),
      (∀ i, exactAt lines poi i → (∀ j, j < i → ¬ exactAt lines poi j) →
          markCompleteIdx lines poi = some i)
      ∧ ((∀ i, ¬ exactAt lines poi i) →
          ((∀ i, lineScore lines poi i = none) → markCompleteIdx lines poi = none)
          ∧ ∀ i q, lineScore lines poi i = some q →
              ∃ k r, markCompleteIdx lines poi = some k ∧ lineScore lines poi k = some r
                ∧ (∀ j s, lineScore lines poi j = some s → s ≤ r)
                ∧ ∀ j, lineScore lines poi j = some r → k ≤ j))
    ∧ markCompleteLines [("- [ ] Fix bug").data, ("- [ ] Fix bug in parser").data]
        (("Fix bug").data)
      = some ([("- [x] Fix bug").data, ("- [ ] Fix bug in parser").data], ("Fix bug").data) := by
  constructor
  · intro lines poi
    constructor
    · rintro i ⟨line, hline, hex⟩ hfirst
      have hidx : findFirstIdx (isExactLine poi) lines = some i := by
        refine findFirstIdx_eq_some_iff.mpr ⟨⟨line, hline, hex⟩, ?_⟩
        intro j hj l hl
        cases hex' : isExactLine poi l with
        | false => rfl
        | true => exact absurd ⟨l, hl, hex'⟩ (hfirst j hj)
      simp [markCompleteIdx, hidx]
    · intro hnoexact
      have hnone : findFirstIdx (isExactLine poi) lines = none :=
        exact_none_iff.mpr hnoexact
      constructor
      · intro hall
        have hcand : candsAux (lowerStr (pyStrip poi)) 0 lines = [] := by
          rw [candsAux_eq_nil_iff]
          intro l hl
          rcases List.mem_iff_getElem?.mp hl with ⟨j, hj⟩
          cases hcl : candLine (lowerStr (pyStrip poi)) l with
          | none => rfl
          | some qt =>
            have : lineScore lines poi j = some qt.1 := by
              simp [lineScore, hj, hcl]
            rw [hall j] at this
            cases this
        simp [markCompleteIdx, hnone, hcand, sortDesc]
      · intro i q hq
        obtain ⟨t, hmem⟩ := lineScore_eq_some_iff.mp hq
        have hne : candsAux (lowerStr (pyStrip poi)) 0 lines ≠ [] := by
          intro h
          rw [h] at hmem
          cases hmem
        obtain ⟨c, pre, post, hhead, hdecomp, hpre, hpost⟩ :=
          sortDesc_head_first_max _ hne
        obtain ⟨rest, hrest⟩ : ∃ rest,
            sortDesc (candsAux (lowerStr (pyStrip poi)) 0 lines) = c :: rest := by
          cases hs : sortDesc (candsAux (lowerStr (pyStrip poi)) 0 lines) with
          | nil => rw [hs] at hhead; cases hhead
          | cons a as =>
            rw [hs] at hhead
            simp only [List.head?_cons, Option.some_inj] at hhead
            exact ⟨as, by rw [hhead]⟩
        have hpair := candsAux_pairwise (lowerStr (pyStrip poi)) 0 lines
        rw [hdecomp] at hpair
        have hpost_idx : ∀ d ∈ post, c.1 < d.1 := by
          have := (List.pairwise_append.mp hpair).2.1
          exact (List.pairwise_cons.mp this).1
        have hcmem : c ∈ candsAux (lowerStr (pyStrip poi)) 0 lines := by
          rw [hdecomp]
          exact List.mem_append_right _ (List.mem_cons_self _ _)
        have hscore_c : lineScore lines poi c.1 = some c.2.1 :=
          lineScore_eq_some_iff.mpr ⟨c.2.2, by simpa using hcmem⟩
        refine ⟨c.1, c.2.1, ?_, hscore_c, ?_, ?_⟩
        · simp [markCompleteIdx, hnone, hrest]
        · intro j s hs
          obtain ⟨t', hmem'⟩ := lineScore_eq_some_iff.mp hs
          rw [hdecomp] at hmem'
          rcases List.mem_append.mp hmem' with h' | h'
          · exact le_of_lt (hpre _ h')
          · rcases List.mem_cons.mp h' with h' | h'
            · exact le_of_eq (congrArg (fun p => p.2.1) h')
            · exact hpost _ h'
        · intro j hj
          obtain ⟨t', hmem'⟩ := lineScore_eq_some_iff.mp hj
          rw [hdecomp] at hmem'
          rcases List.mem_append.mp hmem' with h' | h'
          · exact absurd (hpre _ h') (lt_irrefl _)
          · rcases List.mem_cons.mp h' with h' | h'
            · exact le_of_eq (congrArg Prod.fst h'.symm)
            · exact le_of_lt (hpost_idx _ h')
  · decide

theorem c1_mark_complete_resolution_witness :
    markCompleteIdx [("- [ ] Fix bug").data, ("- [ ] Fix bug in parser").data]
        (("Fix bug").data) = some 0 :=
  (c1_mark_complete_resolution.1 _ _).1 0
    ⟨("- [ ] Fix bug").data, by decide, by decide⟩
    (fun j hj => absurd hj (Nat.not_lt_zero j))

/-! ## Helper lemmas: line rewriting (C4) -/

theorem mem_takeWhile_pred {p : Char → Bool} {l : Str} {c : Char}
    (h : c ∈ l.takeWhile p) : p c = true := by
  induction l with
  | nil => cases h
  | cons a l ih =>
    rw [List.takeWhile_cons] at h
    by_cases ha : p a
    · rw [if_pos ha] at h
      rcases List.mem_cons.mp h with rfl | h
      · exact ha
      · exact ih h
    · rw [if_neg ha] at h
      cases h

theorem takeWhile_eq_of_all {p : Char → Bool} {w rest : Str}
    (hw : ∀ c ∈ w, p c = true) (hr : ∀ c, rest.head? = some c → p c = false) :
    (w ++ rest).takeWhile p = w ∧ (w ++ rest).dropWhile p = rest := by
  induction w with
  | nil =>
    simp only [List.nil_append]
    cases rest with
    | nil => simp
    | cons c r =>
      have := hr c rfl
      simp [List.takeWhile_cons, List.dropWhile_cons, this]
  | cons a w' ih =>
    have ha : p a = true := hw a (List.mem_cons_self _ _)
    have ih' := ih fun c hc => hw c (List.mem_cons_of_mem _ hc)
    simp [List.takeWhile_cons, List.dropWhile_cons, ha, ih'.1, ih'.2]

theorem parseIncomplete_spec {line w1 : Str} {b : Char} {w2 rest : Str}
    (h : parseIncomplete line = some (w1, b, w2, rest)) :
    line = w1 ++ b :: (w2 ++ '[' :: ' ' :: ']' :: rest) ∧ (b = '-' ∨ b = '*') ∧
      rewriteLine line = w1 ++ b :: (w2 ++ '[' :: 'x' :: ']' :: rest) := by
  have hrw : rewriteLine line = w1 ++ b :: (w2 ++ '[' :: 'x' :: ']' :: rest) := by
    unfold rewriteLine
    rw [h]
  unfold parseIncomplete at h
  cases hd : line.dropWhile isPySpace with
  | nil => rw [hd] at h; cases h
  | cons b' rest1 =>
    rw [hd] at h
    simp only at h
    split at h
    case isTrue hb' =>
      split at h
      case h_1 r heq =>
        simp only [Option.some_inj, Prod.mk.injEq] at h
        obtain ⟨hw1, hbeq, hw2, hr⟩ := h
        subst hw1
        subst hbeq
        subst hw2
        subst hr
        refine ⟨?_, hb', hrw⟩
        conv_lhs => rw [← List.takeWhile_append_dropWhile isPySpace line]
        rw [hd]
        congr 1
        conv_lhs => rw [← List.takeWhile_append_dropWhile isPySpace rest1]
        rw [heq]
      case h_2 => cases h
    case isFalse => cases h

theorem mem_insertDesc {x c : Nat × ℚ × Str} {l : List (Nat × ℚ × Str)} :
    x ∈ insertDesc c l ↔ x = c ∨ x ∈ l := by
  induction l with
  | nil => simp [insertDesc]
  | cons d ds ih =>
    simp only [insertDesc]
    split
    · simp only [List.mem_cons]
    · simp only [List.mem_cons, ih]
      tauto

theorem mem_sortDesc {x : Nat × ℚ × Str} {l : List (Nat × ℚ × Str)} :
    x ∈ sortDesc l ↔ x ∈ l := by
  induction l with
  | nil => simp [sortDesc]
  | cons c cs ih =>
    simp only [sortDesc, mem_insertDesc, List.mem_cons, ih]

/-- Whatever branch selected index `i`, line `i` exists and parses as an
incomplete task. -/
theorem markCompleteIdx_parse {lines : List Str} {poi : Str} {i : Nat}
    (h : markCompleteIdx lines poi = some i) :
    ∃ line, lines[i]? = some line ∧ (parseIncomplete line).isSome = true := by
  cases hfi : findFirstIdx (isExactLine poi) lines with
  | some i' =>
    simp only [markCompleteIdx, hfi, Option.some_inj] at h
    subst h
    rcases findFirstIdx_eq_some_iff.mp hfi with ⟨⟨l, hl, hex⟩, _⟩
    refine ⟨l, hl, ?_⟩
    unfold isExactLine at hex
    cases hp : parseIncomplete l with
    | none => rw [hp] at hex; cases hex
    | some _ => simp
  | none =>
    cases hs : sortDesc (candsAux (lowerStr (pyStrip poi)) 0 lines) with
    | nil => simp [markCompleteIdx, hfi, hs] at h
    | cons c cr =>
      simp only [markCompleteIdx, hfi, hs, Option.some_inj] at h
      subst h
      have hc : c ∈ candsAux (lowerStr (pyStrip poi)) 0 lines :=
        mem_sortDesc.mp (hs ▸ List.mem_cons_self c cr)
      rcases candsAux_mem_iff.mp hc with ⟨j, line, hline, hj, hcand⟩
      refine ⟨line, by rw [hj]; simpa using hline, ?_⟩
      unfold candLine at hcand
      cases hp : parseIncomplete line with
      | none => rw [hp] at hcand; cases hcand
      | some _ => simp

/-! ## C4 -/

/-- C4: when `mark_complete` finds a match, the new line list is the old one
with exactly the matched line rewritten — its whitespace, bullet character
and item text are preserved byte-for-byte and only the bracket `[ ]`
becomes `[x]`; every other line is unchanged.  When no candidate matches,
the store is returned unmodified (the file is not written). -/
theorem c4_mark_complete_frame :
    (∀ (lines : List Str) (poi : Str) (out : List Str) (txt : Str),
      markCompleteLines lines poi = some (out, txt) →
        ∃ (i : Nat) (w1 : Str) (b : Char) (w2 rest : Str),
          lines[i]? = some (w1 ++ b :: (w2 ++ '[' :: ' ' :: ']' :: rest)) ∧
          (b = '-' ∨ b = '*') ∧
          out = lines.set i (w1 ++ b :: (w2 ++ '[' :: 'x' :: ']' :: rest)) ∧
          ∀ j, j ≠ i → out[j]? = lines[j]?)
    ∧ ∀ (s : Store) (content poi : Str), s.plan = some content →
        markCompleteText content poi = none → (markCompleteOp s poi).1 = s := by
  constructor
  · intro lines poi out txt h
    unfold markCompleteLines at h
    cases hidx : markCompleteIdx lines poi with
    | none => rw [hidx] at h; cases h
    | some i =>
      rw [hidx] at h
      simp only [Option.some_inj, Prod.mk.injEq] at h
      obtain ⟨hout, _⟩ := h
      rcases markCompleteIdx_parse hidx with ⟨line, hline, hparse⟩
      rcases Option.isSome_iff_exists.mp hparse with ⟨⟨w1, b, w2, rest⟩, hp⟩
      rcases parseIncomplete_spec hp with ⟨hdec, hb, hrw⟩
      have hgetD : lines.getD i [] = line := by
        rw [List.getD_eq_getElem?_getD, hline]
        rfl
      refine ⟨i, w1, b, w2, rest, by rw [← hdec]; exact hline, hb, ?_, ?_⟩
      · rw [← hout, hgetD, hrw]
      · intro j hj
        rw [← hout, hgetD, List.getElem?_set_ne (Ne.symm hj)]
  · intro s content poi hplan hnone
    simp [markCompleteOp, hplan, hnone]

theorem c4_mark_complete_frame_witness :
    markCompleteLines [("  * [ ] alpha").data, ("- [x] beta").data] ("alpha").data
        = some ([("  * [x] alpha").data, ("- [x] beta").data], ("alpha").data) ∧
      ∃ (i : Nat) (w1 : Str) (b : Char) (w2 rest : Str),
        ([("  * [ ] alpha").data, ("- [x] beta").data])[i]? =
          some (w1 ++ b :: (w2 ++ '[' :: ' ' :: ']' :: rest)) ∧
        (b = '-' ∨ b = '*') ∧
        [("  * [x] alpha").data, ("- [x] beta").data] =
          ([("  * [ ] alpha").data, ("- [x] beta").data]).set i
            (w1 ++ b :: (w2 ++ '[' :: 'x' :: ']' :: rest)) ∧
        ∀ j, j ≠ i →
          ([("  * [x] alpha").data, ("- [x] beta").data])[j]? =
            ([("  * [ ] alpha").data, ("- [x] beta").data])[j]? :=
  ⟨by decide,
    c4_mark_complete_frame.1 [("  * [ ] alpha").data, ("- [x] beta").data] (("alpha").data)
      [("  * [x] alpha").data, ("- [x] beta").data] (("alpha").data) (by decide)⟩

/-! ## C5 -/

/-- C5 counterexample: the claim says the "offset beyond end" sentinel is
returned for every offset ≥ the content length, including offset 0 on an
empty document; but `read_plan` only checks the bound when `start_char > 0`,
so offset 0 on an empty document returns the empty content, not the
end-of-range warning. -/
theorem c5_counterexample :
    readPlanPure true [] 0 4000 = [] ∧ readPlanPure true [] 0 4000 ≠ endOfFileMsg := by
  constructor
  · rfl
  · decide

/-- C5 (amended): `read_plan`/`read_findings` return the raw content from
the offset to the end, truncated to the budget with a visible marker
appended exactly when the remaining content exceeds the budget (a 10-char
budget on a 100-char document yields exactly 10 content characters plus the
notice); the "no document" sentinel when the file is absent; and the
"offset beyond end" sentinel exactly for positive offsets ≥ the content
length — offset 0 always returns the (possibly empty) truncated content. -/
theorem c5_read_plan (content : Str) (off maxlen : Nat) :
    (readPlanPure false content off maxlen = noPlanMsg)
  ∧ (0 < off → content.length ≤ off → readPlanPure true content off maxlen = endOfFileMsg)
  ∧ (0 < off → off < content.length →
      readPlanPure true content off maxlen = pyTruncate maxlen (content.drop off))
  ∧ (readPlanPure true content 0 maxlen = pyTruncate maxlen content)
  ∧ (maxlen < (content.drop off).length →
      pyTruncate maxlen (content.drop off) =
        (content.drop off).take maxlen ++ ("\n... (truncated to ").data ++
          (Nat.repr maxlen).data ++ (" characters)").data)
  ∧ ((content.drop off).length ≤ maxlen →
      pyTruncate maxlen (content.drop off) = content.drop off)
  ∧ (readFindingsPure false content off maxlen = ("⚠️ No findings.md found.").data)
  ∧ (0 < off → content.length ≤ off →
      readFindingsPure true content off maxlen = endOfFileMsg)
  ∧ readPlanPure true (List.replicate 100 'a') 0 10 =
      List.replicate 10 'a' ++ ("\n... (truncated to 10 characters)").data := by
  refine ⟨rfl, ?_, ?_, ?_, ?_, ?_, rfl, ?_, by decide⟩
  · intro h1 h2
    simp [readPlanPure, h1, h2]
  · intro h1 h2
    simp [readPlanPure, h1, Nat.not_le.mpr h2]
  · simp [readPlanPure]
  · intro h
    unfold pyTruncate
    rw [if_pos h]
  · intro h
    unfold pyTruncate
    rw [if_neg (Nat.not_lt.mpr h)]
  · intro h1 h2
    simp [readFindingsPure, h1, h2]

theorem c5_read_plan_witness :
    readPlanPure true (("abc").data) 5 4000 = endOfFileMsg :=
  (c5_read_plan (("abc").data) 5 4000).2.1 (by decide) (by decide)

/-! ## C3 -/

/-- C3 counterexample: with only `## Notes` present, requesting section
`"Note"` is treated as a match by `update_plan` (the marker `## Note` is a
substring of `## Notes`), and the section is updated in place rather than a
new `## Note` section being appended at document end as the claim states;
likewise for `save_finding`'s category lookup. -/
theorem c3_counterexample :
    ((updatePlan (("## Notes\nbody\n").data) (("Note").data) (("c").data)).2 = true
      ∧ (updatePlan (("## Notes\nbody\n").data) (("Note").data) (("c").data)).1
          ≠ rstrip (("## Notes\nbody\n").data) ++ ("\n\n## ").data ++ ("Note").data ++
              '\n' :: ("c").data ++ ['\n'])
    ∧ saveFinding (("## Notes\nbody\n").data) (("T").data) (("c").data) (("Note").data)
          (("D").data)
        ≠ rstrip (("## Notes\nbody\n").data) ++ ("\n\n## ").data ++ ("Note").data ++
            newFinding (("T").data) (("c").data) (("D").data) := by
  refine ⟨⟨rfl, by decide⟩, by decide⟩

/-- C3 (amended): the level-2 section lookup of `update_plan` and
`save_finding` matches the first occurrence of the literal marker string
`## {name}` as a substring anywhere in the document — in particular a
requested name that is a prefix of an existing heading's title is treated
as a match of that heading — and a new section with the requested name is
appended at document end exactly when the marker occurs nowhere. -/
theorem c3_section_lookup (text sec con findings title fcon cat ts : Str) :
    ((updatePlan text sec con).2 = false ↔ containsSub text (sectionMarker sec) = false)
  ∧ (containsSub text (sectionMarker sec) = false →
      updatePlan text sec con =
        (rstrip text ++ ("\n\n## ").data ++ sec ++ '\n' :: con ++ ['\n'], false))
  ∧ (∀ idx, findFrom text (sectionMarker sec) 0 = some idx →
      (updatePlan text sec con).2 = true
      ∧ (findFrom text (("\n## ").data) (idx + (sectionMarker sec).length) = none →
          (updatePlan text sec con).1 =
            text.take (idx + (sectionMarker sec).length) ++ '\n' :: con ++ ['\n'])
      ∧ ∀ ns, findFrom text (("\n## ").data) (idx + (sectionMarker sec).length) = some ns →
          (updatePlan text sec con).1 =
            text.take (idx + (sectionMarker sec).length) ++ '\n' :: con ++
              '\n' :: text.drop ns)
  ∧ (containsSub findings (sectionMarker cat) = false →
      saveFinding findings title fcon cat ts =
        rstrip findings ++ ("\n\n## ").data ++ cat ++ newFinding title fcon ts) := by
  refine ⟨?_, ?_, ?_, ?_⟩
  · unfold updatePlan
    cases h : findFrom text (sectionMarker sec) 0 with
    | none =>
      simp only [h]
      simp [containsSub, h]
    | some idx =>
      simp only [h]
      cases h2 : findFrom text (("\n## ").data) (idx + (sectionMarker sec).length) with
      | none =>
        simp only [h2]
        simp [containsSub, h]
      | some ns =>
        simp only [h2]
        simp [containsSub, h]
  · intro h
    unfold containsSub at h
    unfold updatePlan
    cases hf : findFrom text (sectionMarker sec) 0 with
    | none => simp only [hf]
    | some idx =>
      rw [hf] at h
      simp at h
  · intro idx hidx
    unfold updatePlan
    simp only [hidx]
    refine ⟨?_, ?_, ?_⟩
    · cases h2 : findFrom text (("\n## ").data) (idx + (sectionMarker sec).length) with
      | none => simp only [h2]
      | some ns => simp only [h2]
    · intro h2
      simp only [h2]
    · intro ns h2
      simp only [h2]
  · intro h
    unfold containsSub at h
    unfold saveFinding
    cases hf : findFrom findings (sectionMarker cat) 0 with
    | none => simp only [hf]
    | some idx =>
      rw [hf] at h
      simp at h

theorem c3_section_lookup_witness :
    updatePlan (("body").data) (("S").data) (("c").data) =
      (rstrip (("body").data) ++ ("\n\n## ").data ++ ("S").data ++
        '\n' :: ("c").data ++ ['\n'], false) :=
  (c3_section_lookup (("body").data) (("S").data) (("c").data) [] [] [] [] []).2.1
    (by decide)

/-! ## C2 -/

set_option maxRecDepth 20000

/-- C2 counterexample: in the documented scenario `get_status` reports
`total = 1`, not `total = 3` — the two default empty items `- [ ] ` written
by `create_plan` fail the todo regex `^-\s+\[([ x])\]\s+(.+)$` (no
non-empty text after the checkbox) and are not counted. -/
theorem c2_counterexample :
    (scenarioPlan2.map fun p => (statusOf p).total) = some 1
    ∧ (scenarioPlan2.map fun p => (statusOf p).total) ≠ some 3 := by
  constructor
  · rfl
  · intro h
    rw [show (scenarioPlan2.map fun p => (statusOf p).total) = some 1 from rfl] at h
    cases h

/-- C2 (amended): `create_plan` with phases `["Investigate","Implement"]`
writes one level-3 heading per supplied phase with one empty unchecked item
each (the final item's trailing space is removed by `strip`), but those
empty items are not recognised by status parsing; after the documented
add_todo/mark_complete sequence, `get_status` reports completed = 1,
total = 1 (only the added item) and errors = 0. -/
theorem c2_scenario :
    scenarioPlan2.map statusOf = some ⟨1, 1, 0⟩
    ∧ pyCount (("### Phase").data) scenarioPlan0 = 2
    ∧ containsSub scenarioPlan0 (("### Phase 1: Investigate\n- [ ] \n").data) = true
    ∧ containsSub scenarioPlan0 (("### Phase 2: Implement\n- [ ]\n").data) = true
    ∧ parseTodosFromPlan scenarioPlan0 = [] := by
  refine ⟨rfl, ?_, ?_, ?_, rfl⟩
  · rfl
  · rfl
  · rfl

/-! ## C10 -/

theorem parseIncomplete_isSome_iff {line : Str} :
    (parseIncomplete line).isSome = true ↔
      ∃ (w1 : Str) (bl : Char) (w2 rest : Str),
        line = w1 ++ bl :: (w2 ++ '[' :: ' ' :: ']' :: rest) ∧
        (∀ c ∈ w1, isPySpace c = true) ∧ (bl = '-' ∨ bl = '*') ∧
        (∀ c ∈ w2, isPySpace c = true) := by
  constructor
  · intro h
    rcases Option.isSome_iff_exists.mp h with ⟨⟨w1, bl, w2, rest⟩, hp⟩
    rcases parseIncomplete_spec hp with ⟨hdec, hb, _⟩
    refine ⟨w1, bl, w2, rest, hdec, ?_, hb, ?_⟩
    · intro c hc
      unfold parseIncomplete at hp
      cases hd : line.dropWhile isPySpace with
      | nil => rw [hd] at hp; cases hp
      | cons b' rest1 =>
        rw [hd] at hp
        simp only at hp
        split at hp
        · split at hp
          · simp only [Option.some_inj, Prod.mk.injEq] at hp
            rw [← hp.1] at hc
            exact mem_takeWhile_pred hc
          · cases hp
        · cases hp
    · intro c hc
      unfold parseIncomplete at hp
      cases hd : line.dropWhile isPySpace with
      | nil => rw [hd] at hp; cases hp
      | cons b' rest1 =>
        rw [hd] at hp
        simp only at hp
        split at hp
        · split at hp
          · simp only [Option.some_inj, Prod.mk.injEq] at hp
            rw [← hp.2.2.1] at hc
            exact mem_takeWhile_pred hc
          · cases hp
        · cases hp
  · rintro ⟨w1, bl, w2, rest, rfl, hw1, hb, hw2⟩
    have hbl : isPySpace bl = false := by
      rcases hb with rfl | rfl <;> decide
    have h1 := @takeWhile_eq_of_all isPySpace
      w1 (bl :: (w2 ++ '[' :: ' ' :: ']' :: rest)) hw1
      (by intro c hc; cases hc; exact hbl)
    have h2 := @takeWhile_eq_of_all isPySpace
      w2 ('[' :: ' ' :: ']' :: rest) hw2
      (by intro c hc; cases hc; decide)
    rcases hb with rfl | rfl <;>
      (unfold parseIncomplete
       rw [h1.2]
       simp [h2.2])

theorem tailText_isSome_iff {rest : Str} :
    (tailText rest).isSome = true ↔
      ∃ w t, rest = w ++ t ∧ w ≠ [] ∧ (∀ c ∈ w, isPySpace c = true) ∧ t ≠ [] := by
  constructor
  · intro h
    cases rest with
    | nil => cases h
    | cons c r =>
      cases r with
      | nil => cases h
      | cons d r' =>
        unfold tailText at h
        simp only at h
        by_cases hc : isPySpace c = true
        · refine ⟨[c], d :: r', rfl, by simp, ?_, by simp⟩
          intro c' hc'
          rcases List.mem_singleton.mp hc' with rfl
          exact hc
        · rw [if_neg hc] at h
          cases h
  · rintro ⟨w, t, rfl, hw, hall, ht⟩
    cases w with
    | nil => exact absurd rfl hw
    | cons w0 w' =>
      have hw0 : isPySpace w0 = true := hall w0 (List.mem_cons_self _ _)
      cases hwt : w' ++ t with
      | nil =>
        rcases List.append_eq_nil.mp hwt with ⟨_, rfl⟩
        exact absurd rfl ht
      | cons e r =>
        unfold tailText
        rw [List.cons_append, hwt]
        simp [hw0]

theorem parseTodoLine_isSome_iff {line : Str} :
    (parseTodoLine line).isSome = true ↔
      ∃ (w1 : Str) (m : Char) (w2 t : Str),
        line = '-' :: (w1 ++ '[' :: m :: ']' :: (w2 ++ t)) ∧
        w1 ≠ [] ∧ (∀ c ∈ w1, isPySpace c = true) ∧ (m = ' ' ∨ m = 'x') ∧
        w2 ≠ [] ∧ (∀ c ∈ w2, isPySpace c = true) ∧ t ≠ [] := by
  constructor
  · intro h
    unfold parseTodoLine at h
    split at h
    case h_2 => cases h
    case h_1 rest =>
      split at h
      case h_2 => cases h
      case h_1 m rest2 heq2 =>
        split at h
        case isFalse => cases h
        case isTrue hcond =>
          have ht : (tailText rest2).isSome = true := by
            cases htt : tailText rest2 with
            | none => rw [htt] at h; cases h
            | some v => simp
          rcases tailText_isSome_iff.mp ht with ⟨w2, t, rfl, hw2ne, hw2, htne⟩
          refine ⟨rest.takeWhile isPySpace, m, w2, t, ?_, hcond.1,
            fun c hc => mem_takeWhile_pred hc, hcond.2, hw2ne, hw2, htne⟩
          have : rest = rest.takeWhile isPySpace ++ rest.dropWhile isPySpace :=
            (List.takeWhile_append_dropWhile isPySpace rest).symm
          rw [heq2] at this
          rw [← this]
  · rintro ⟨w1, m, w2, t, rfl, hw1ne, hw1, hm, hw2ne, hw2, ht⟩
    have hd := @takeWhile_eq_of_all isPySpace
      w1 ('[' :: m :: ']' :: (w2 ++ t)) hw1
      (by intro c hc; cases hc; decide)
    unfold parseTodoLine
    simp only [hd.2]
    rw [if_pos ⟨by rw [hd.1]; exact hw1ne, hm⟩]
    have htt : (tailText (w2 ++ t)).isSome = true :=
      tailText_isSome_iff.mpr ⟨w2, t, rfl, hw2ne, hw2, ht⟩
    cases htv : tailText (w2 ++ t) with
    | none => rw [htv] at htt; cases htt
    | some v => simp [htv]

/-- C10: the checklist parser behind `get_status`/`check_plan_integrity`
recognises exactly the lines that start at column 0 with `-`, at least one
whitespace character, `[ ]` or `[x]`, at least one whitespace character and
non-empty text; a checklist line with leading indentation, a `*` bullet, or
empty text after the checkbox is still a toggle candidate for
`mark_complete` but is excluded from the parsed item list, so marking it
complete changes the document without changing the completed/total counts. -/
theorem c10_parser_vs_toggle :
    (∀ line : Str, (parseTodoLine line).isSome = true ↔
      ∃ (w1 : Str) (m : Char) (w2 t : Str),
        line = '-' :: (w1 ++ '[' :: m :: ']' :: (w2 ++ t)) ∧
        w1 ≠ [] ∧ (∀ c ∈ w1, isPySpace c = true) ∧ (m = ' ' ∨ m = 'x') ∧
        w2 ≠ [] ∧ (∀ c ∈ w2, isPySpace c = true) ∧ t ≠ [])
    ∧ (∀ (c : Char) (line : Str), isPySpace c = true →
        parseTodoLine (c :: line) = none
        ∧ (isIncompleteTask line = true → isIncompleteTask (c :: line) = true))
    ∧ (∀ rest : Str, parseTodoLine ('*' :: rest) = none)
    ∧ (isIncompleteTask (("* [ ] beta").data) = true
       ∧ parseTodoLine (("* [ ] beta").data) = none
       ∧ isIncompleteTask (("- [ ]").data) = true
       ∧ parseTodoLine (("- [ ]").data) = none
       ∧ isIncompleteTask (("- [ ] ").data) = true
       ∧ parseTodoLine (("- [ ] ").data) = none)
    ∧ markCompleteText (("  - [ ] alpha").data) (("alpha").data)
        = some ((("  - [x] alpha").data), (("alpha").data))
    ∧ statusOf (("  - [ ] alpha").data) = ⟨0, 0, 0⟩
    ∧ statusOf (("  - [x] alpha").data) = ⟨0, 0, 0⟩ := by
  refine ⟨fun _ => parseTodoLine_isSome_iff, ?_, fun _ => rfl, by decide, rfl, rfl, rfl⟩
  intro c line hc
  constructor
  · cases hp : parseTodoLine (c :: line) with
    | none => rfl
    | some v =>
      exfalso
      have hs : (parseTodoLine (c :: line)).isSome = true := by simp [hp]
      rcases parseTodoLine_isSome_iff.mp hs with ⟨w1, m, w2, t, hdec, _⟩
      have hchar : c = '-' := (List.cons.injEq _ _ _ _ ▸ hdec).1
      rw [hchar] at hc
      exact absurd hc (by decide)
  · intro hinc
    rcases parseIncomplete_isSome_iff.mp hinc with ⟨w1, bl, w2, rest, rfl, hw1, hb, hw2⟩
    refine parseIncomplete_isSome_iff.mpr ⟨c :: w1, bl, w2, rest, rfl, ?_, hb, hw2⟩
    intro x hx
    rcases List.mem_cons.mp hx with rfl | hx
    · exact hc
    · exact hw1 x hx

theorem c10_parser_vs_toggle_witness :
    ∃ (w1 : Str) (m : Char) (w2 t : Str),
      ("- [x] hi").data = '-' :: (w1 ++ '[' :: m :: ']' :: (w2 ++ t)) ∧
      w1 ≠ [] ∧ (∀ c ∈ w1, isPySpace c = true) ∧ (m = ' ' ∨ m = 'x') ∧
      w2 ≠ [] ∧ (∀ c ∈ w2, isPySpace c = true) ∧ t ≠ [] :=
  (c10_parser_vs_toggle.1 (("- [x] hi").data)).mp (by decide)

/-! ## C7 -/

/-- C7: when the plan document is absent, every plan-requiring operation
(read_plan, update_plan, mark_complete, add_todo, log_error, get_status,
check_plan_integrity) returns its non-fatal "not found" sentinel and leaves
the store untouched; only save_finding and log_progress auto-create their
own target document from its template on a first content-adding call; and
no operation implicitly creates the plan document. -/
theorem c7_absent_plan (s : Store) (h : s.plan = none)
    (startChar maxlength : Nat) (sec con poi item title cat entry err ctx ts : Str)
    (ph : Option Str) (incTs : Bool) :
    readPlanOp s startChar maxlength = (s, noPlanMsg)
  ∧ updatePlanOp s sec con = (s, noPlanShortMsg)
  ∧ markCompleteOp s poi = (s, noPlanShortMsg)
  ∧ addTodoOp s item ph = (s, noPlanShortMsg)
  ∧ logErrorOp s err ctx ts = (s, noPlanShortMsg)
  ∧ getStatusOp s = (s, ("📋 No active planning session. Use create_plan to start.").data)
  ∧ checkIntegrityOp s = (s, ("⚠️ No plan found.").data)
  ∧ (saveFindingOp s title con cat ts).1.plan = none
  ∧ (logProgressOp s entry ts incTs).1.plan = none
  ∧ (readFindingsOp s startChar maxlength).1 = s
  ∧ (s.findings = none →
      (saveFindingOp s title con cat ts).1.findings =
        some (saveFinding (findingsContent (("Task").data) ts) title con cat ts))
  ∧ (s.progress = none →
      (logProgressOp s entry ts incTs).1.progress =
        some (logProgress (progressContent (("Task").data) ts) entry ts incTs)) := by
  refine ⟨?_, ?_, ?_, ?_, ?_, ?_, ?_, ?_, ?_, ?_, ?_, ?_⟩
  · simp [readPlanOp, h]
  · simp [updatePlanOp, h]
  · simp [markCompleteOp, h]
  · simp [addTodoOp, h]
  · simp [logErrorOp, h]
  · simp [getStatusOp, h]
  · simp [checkIntegrityOp, h]
  · simp [saveFindingOp, h]
  · simp [logProgressOp, h]
  · simp [readFindingsOp]
  · intro hf
    simp [saveFindingOp, hf]
  · intro hp
    simp [logProgressOp, hp]

theorem c7_absent_plan_witness :
    readPlanOp ⟨none, none, none⟩ 0 4000 = (⟨none, none, none⟩, noPlanMsg) :=
  (c7_absent_plan ⟨none, none, none⟩ rfl 0 4000 [] [] [] [] [] [] [] [] [] []
    none true).1

/-! ## Helper lemmas: occurrence counting (C6) -/

theorem pyCountFuel_nil (pat : Str) (fuel : Nat) : pyCountFuel pat fuel [] = 0 := by
  cases fuel <;> rfl

theorem pat_len_pos {pat : Str} (hpat : pat ≠ []) : 1 ≤ pat.length := by
  cases pat with
  | nil => exact absurd rfl hpat
  | cons _ _ => simp

theorem pyCountFuel_congr {pat : Str} (hpat : pat ≠ []) :
    ∀ (fuel fuel' : Nat) (s : Str), s.length ≤ fuel → s.length ≤ fuel' →
      pyCountFuel pat fuel s = pyCountFuel pat fuel' s := by
  intro fuel
  induction fuel with
  | zero =>
    intro fuel' s hs _
    have : s = [] := List.length_eq_zero.mp (Nat.le_zero.mp hs)
    subst this
    rw [pyCountFuel_nil, pyCountFuel_nil]
  | succ n ih =>
    intro fuel' s hs hs'
    cases s with
    | nil => rw [pyCountFuel_nil, pyCountFuel_nil]
    | cons c rest =>
      cases fuel' with
      | zero => simp at hs'
      | succ m =>
        simp only [pyCountFuel]
        simp only [List.length_cons] at hs hs'
        have hp1 := pat_len_pos hpat
        by_cases hp : pat.isPrefixOf (c :: rest) = true
        · rw [if_pos hp, if_pos hp]
          have hd : ((c :: rest).drop pat.length).length = rest.length + 1 - pat.length := by
            simp
          exact congrArg (1 + ·)
            (ih m _ (by rw [hd]; omega) (by rw [hd]; omega))
        · rw [if_neg hp, if_neg hp]
          exact ih m rest (by omega) (by omega)

theorem pyCount_nil {pat : Str} (hpat : pat ≠ []) : pyCount pat [] = 0 := by
  unfold pyCount
  rw [if_neg hpat]
  rfl

theorem pyCount_cons {pat : Str} (hpat : pat ≠ []) (c : Char) (rest : Str) :
    pyCount pat (c :: rest) =
      if pat.isPrefixOf (c :: rest) = true then
        1 + pyCount pat ((c :: rest).drop pat.length)
      else pyCount pat rest := by
  have hp1 := pat_len_pos hpat
  simp only [pyCount, if_neg hpat]
  simp only [List.length_cons, pyCountFuel]
  by_cases hp : pat.isPrefixOf (c :: rest) = true
  · rw [if_pos hp, if_pos hp]
    refine congrArg (1 + ·) (pyCountFuel_congr hpat _ _ _ ?_ le_rfl)
    simp only [List.length_drop, List.length_cons]
    omega
  · rw [if_neg hp, if_neg hp]

/-- Scanning `a ++ b` counts the occurrences in `a` plus those in `b`
whenever no occurrence spans the boundary. -/
theorem pyCount_append_bounded {pat : Str} (hpat : pat ≠ []) :
    ∀ (n : Nat) (a b : Str), a.length ≤ n → NoSpan pat a b →
      pyCount pat (a ++ b) = pyCount pat a + pyCount pat b := by
  intro n
  induction n with
  | zero =>
    intro a b ha _
    have : a = [] := List.length_eq_zero.mp (Nat.le_zero.mp ha)
    subst this
    rw [List.nil_append, pyCount_nil hpat, Nat.zero_add]
  | succ n ih =>
    intro a b ha hns
    cases a with
    | nil => rw [List.nil_append, pyCount_nil hpat, Nat.zero_add]
    | cons c a' =>
      have hp1 := pat_len_pos hpat
      simp only [List.length_cons] at ha
      rw [List.cons_append]
      by_cases hp : pat.isPrefixOf (c :: (a' ++ b)) = true
      · have hlen : pat.length ≤ a'.length + 1 := by
          by_contra hlt
          have h0 := hns 0 (by simp) (by simp; omega)
          rw [List.drop_zero, List.cons_append] at h0
          rw [hp] at h0
          cases h0
        have hpre : pat <+: (c :: a') ++ b := by
          rw [List.cons_append]
          exact List.isPrefixOf_iff_prefix.mp hp
        have hp' : pat.isPrefixOf (c :: a') = true := by
          rw [List.isPrefixOf_iff_prefix, List.prefix_iff_eq_take]
          have htk := List.prefix_iff_eq_take.mp hpre
          rw [List.take_append_of_le_length (by simpa using hlen)] at htk
          exact htk
        rw [pyCount_cons hpat, if_pos hp]
        rw [pyCount_cons hpat c a', if_pos hp']
        have hdrop : (c :: (a' ++ b)).drop pat.length = (c :: a').drop pat.length ++ b := by
          rw [← List.cons_append]
          exact List.drop_append_of_le_length (by simpa using hlen)
        rw [hdrop]
        have hlendrop : ((c :: a').drop pat.length).length ≤ n := by
          simp only [List.length_drop, List.length_cons]
          omega
        rw [ih _ b hlendrop ?_]
        · omega
        · intro i hi hsp
          simp only [List.length_drop, List.length_cons] at hi hsp
          have heq : ((c :: a').drop pat.length).drop i = (c :: a').drop (pat.length + i) :=
            List.drop_drop i pat.length (c :: a')
          have := hns (pat.length + i) (by simp; omega) (by simp; omega)
          rw [← heq] at this
          exact this
      · have hp' : ¬ pat.isPrefixOf (c :: a') = true := by
          intro h't
          apply hp
          rw [show (c :: (a' ++ b) : Str) = (c :: a') ++ b from rfl]
          exact List.isPrefixOf_iff_prefix.mpr
            ((List.isPrefixOf_iff_prefix.mp h't).trans (List.prefix_append _ b))
        rw [pyCount_cons hpat, if_neg hp]
        rw [pyCount_cons hpat c a', if_neg hp']
        refine ih a' b (by omega) ?_
        intro i hi hsp
        have := hns (i + 1) (by simp; omega) (by simp; omega)
        rw [List.drop_succ_cons] at this
        exact this

theorem pyCount_append_nospan {pat : Str} (hpat : pat ≠ []) (a b : Str)
    (hns : NoSpan pat a b) :
    pyCount pat (a ++ b) = pyCount pat a + pyCount pat b :=
  pyCount_append_bounded hpat a.length a b le_rfl hns

/-- A pattern that does not contain `'\n'` cannot span into a part that
starts with `'\n'`. -/
theorem noSpan_newline {pat a b' : Str} (hnl : '\n' ∉ pat) :
    NoSpan pat a ('\n' :: b') := by
  intro i hi hsp
  cases h2 : pat.isPrefixOf (a.drop i ++ '\n' :: b') with
  | false => rfl
  | true =>
    exfalso
    obtain ⟨t, ht⟩ := List.isPrefixOf_iff_prefix.mp h2
    have hk : a.length - i < pat.length := by omega
    have hkd : (a.drop i).length = a.length - i := List.length_drop i a
    have e1 : (pat ++ t)[a.length - i]? = pat[a.length - i]? :=
      List.getElem?_append_left hk
    rw [ht] at e1
    rw [List.getElem?_append_right (by omega)] at e1
    rw [hkd] at e1
    rw [show a.length - i - (a.length - i) = 0 from by omega] at e1
    have e2 : pat[a.length - i]? = some '\n' := by
      rw [← e1]
      simp
    rcases List.getElem?_eq_some.mp e2 with ⟨hlt, hch⟩
    exact hnl (hch ▸ List.getElem_mem hlt)

/-- A pattern whose last character is not whitespace cannot span into an
all-whitespace part. -/
theorem noSpan_ws {pat a w : Str} (hpat : pat ≠ [])
    (hlast : isPySpace (pat.getLast hpat) = false)
    (hw : ∀ c ∈ w, isPySpace c = true) : NoSpan pat a w := by
  intro i hi hsp
  cases h2 : pat.isPrefixOf (a.drop i ++ w) with
  | false => rfl
  | true =>
    exfalso
    obtain ⟨t, ht⟩ := List.isPrefixOf_iff_prefix.mp h2
    have hkd : (a.drop i).length = a.length - i := List.length_drop i a
    have hplpos := pat_len_pos hpat
    have hlt : pat.length - 1 < pat.length := by omega
    have e1 : (pat ++ t)[pat.length - 1]? = pat[pat.length - 1]? :=
      List.getElem?_append_left hlt
    rw [ht] at e1
    rw [List.getElem?_append_right (by omega)] at e1
    have e2 : pat[pat.length - 1]? = some (pat.getLast hpat) := by
      rw [List.getLast_eq_getElem]
      exact List.getElem?_eq_getElem hlt
    rw [e2] at e1
    rcases List.getElem?_eq_some.mp e1 with ⟨hb2, hch⟩
    have hws := hw _ (hch ▸ List.getElem_mem hb2)
    rw [hws] at hlast
    cases hlast

/-- A pattern containing a non-whitespace character never occurs in
all-whitespace text. -/
theorem pyCount_all_ws {pat : Str} (hpat : pat ≠ [])
    (hc : ∃ c ∈ pat, isPySpace c = false) :
    ∀ w : Str, (∀ c ∈ w, isPySpace c = true) → pyCount pat w = 0 := by
  intro w
  induction w with
  | nil => intro _; exact pyCount_nil hpat
  | cons x w' ih =>
    intro hw
    rw [pyCount_cons hpat]
    rw [if_neg ?_]
    · exact ih fun c hc' => hw c (List.mem_cons_of_mem x hc')
    · intro hpre
      rcases hc with ⟨c, hcp, hcw⟩
      have : c ∈ x :: w' := (List.isPrefixOf_iff_prefix.mp hpre).subset hcp
      rw [hw c this] at hcw
      cases hcw

theorem rstrip_wsTail (s : Str) : rstrip s ++ wsTail s = s := by
  unfold rstrip wsTail
  rw [← List.reverse_append, List.takeWhile_append_dropWhile, List.reverse_reverse]

theorem wsTail_ws (s : Str) : ∀ c ∈ wsTail s, isPySpace c = true := by
  intro c hc
  unfold wsTail at hc
  rw [List.mem_reverse] at hc
  exact mem_takeWhile_pred hc

theorem rstrip_length_add (s : Str) : (rstrip s).length + (wsTail s).length = s.length := by
  conv_rhs => rw [← rstrip_wsTail s]
  rw [List.length_append]

/-- `rstrip` never destroys an occurrence of a pattern ending in a
non-whitespace character. -/
theorem pyCount_rstrip {pat : Str} (hpat : pat ≠ [])
    (hlast : isPySpace (pat.getLast hpat) = false) (s : Str) :
    pyCount pat (rstrip s) = pyCount pat s := by
  conv_rhs => rw [← rstrip_wsTail s]
  rw [pyCount_append_nospan hpat _ _ (noSpan_ws hpat hlast (wsTail_ws s))]
  rw [pyCount_all_ws hpat ⟨pat.getLast hpat, List.getLast_mem hpat, hlast⟩ _ (wsTail_ws s)]
  omega

theorem pyCount_cons_nomatch {pat : Str} (hpat : pat ≠ []) {c : Char} {s : Str}
    (h : ¬ pat.isPrefixOf (c :: s) = true) : pyCount pat (c :: s) = pyCount pat s := by
  rw [pyCount_cons hpat, if_neg h]

theorem findFromAux_spec {pat : Str} :
    ∀ (s : Str) (o i : Nat), findFromAux pat o s = some i →
      o ≤ i ∧ i - o ≤ s.length ∧ pat.isPrefixOf (s.drop (i - o)) = true := by
  intro s
  induction s with
  | nil =>
    intro o i h
    unfold findFromAux at h
    by_cases hp : pat.isPrefixOf [] = true
    · rw [if_pos hp] at h
      cases h
      exact ⟨le_rfl, by simp, by simpa using hp⟩
    · rw [if_neg hp] at h
      cases h
  | cons c rest ih =>
    intro o i h
    unfold findFromAux at h
    by_cases hp : pat.isPrefixOf (c :: rest) = true
    · rw [if_pos hp] at h
      cases h
      exact ⟨le_rfl, by simp, by simpa using hp⟩
    · rw [if_neg hp] at h
      rcases ih (o + 1) i h with ⟨h1, h2, h3⟩
      refine ⟨by omega, by simp; omega, ?_⟩
      have : i - o = (i - (o + 1)) + 1 := by omega
      rw [this, List.drop_succ_cons]
      exact h3

theorem findFrom_spec {hay pat : Str} {start i : Nat}
    (h : findFrom hay pat start = some i) :
    start ≤ i ∧ i ≤ hay.length ∧ pat.isPrefixOf (hay.drop i) = true := by
  unfold findFrom at h
  by_cases hs : start ≤ hay.length
  · rw [if_pos hs] at h
    rcases findFromAux_spec (hay.drop start) start i h with ⟨h1, h2, h3⟩
    simp only [List.length_drop] at h2
    refine ⟨h1, by omega, ?_⟩
    rw [List.drop_drop] at h3
    rw [show start + (i - start) = i from by omega] at h3
    exact h3
  · rw [if_neg hs] at h
    cases h

theorem noSpan_head_newline {pat a b : Str} (hnl : '\n' ∉ pat)
    (hb : b.head? = some '\n') : NoSpan pat a b := by
  cases b with
  | nil => cases hb
  | cons c b' =>
    rw [List.head?_cons, Option.some_inj] at hb
    subst hb
    exact noSpan_newline hnl

theorem not_prefix_of_head_ne {c d : Char} {p l : Str} (h : c ≠ d) :
    ¬ (c :: p).isPrefixOf (d :: l) = true := by
  intro hp
  obtain ⟨t, ht⟩ := List.isPrefixOf_iff_prefix.mp hp
  rw [List.cons_append] at ht
  exact h (List.cons.injEq _ _ _ _ ▸ ht).1

/-! ## C6 -/

/-- C6: `log_error` inserts a `### Error at {timestamp}` entry under the
`## Error Log` section (before the next level-2 heading, or creating the
section at document end when absent), always also applies
`log_progress("ERROR: {error}")` to the progress document, and increases
the `get_status` error counter — the number of `### Error at` occurrences —
by exactly 1 per call (the hypothesis that the formatted entry contains the
marker exactly once holds for all inputs that do not themselves embed the
marker string). -/
theorem c6_log_error (s : Store) (plan ts err ctx : Str)
    (hplan : s.plan = some plan)
    (hentry : pyCount (("### Error at").data) (errorEntry ts err ctx) = 1) :
    (logErrorOp s err ctx ts).1.plan = some (logErrorPlan plan ts err ctx)
  ∧ (statusOf (logErrorPlan plan ts err ctx)).errors = (statusOf plan).errors + 1
  ∧ (logErrorOp s err ctx ts).1.progress =
      some (logProgress
        (match s.progress with
         | none => progressContent (("Task").data) ts
         | some p => p) (("ERROR: ").data ++ err) ts true)
  ∧ (containsSub plan (("## Error Log").data) = false →
      logErrorPlan plan ts err ctx =
        rstrip plan ++ ("\n\n## Error Log").data ++ errorEntry ts err ctx)
  ∧ (∀ idx nh, findFrom plan (("## Error Log").data) 0 = some idx →
      findFrom plan (("\n## ").data) (idx + (("## Error Log").data).length) = some nh →
        logErrorPlan plan ts err ctx =
          rstrip (plan.take nh) ++ errorEntry ts err ctx ++ '\n' :: plan.drop nh) := by
  have hpat : (("### Error at").data : Str) ≠ [] := by decide
  have hnl : '\n' ∉ (("### Error at").data : Str) := by decide
  have hlast : isPySpace ((("### Error at").data : Str).getLast (by decide)) = false := by
    decide
  have hehead : (errorEntry ts err ctx).head? = some '\n' := rfl
  refine ⟨?_, ?_, ?_, ?_, ?_⟩
  · simp [logErrorOp, hplan, logProgressOp]
  · show pyCount (("### Error at").data) (logErrorPlan plan ts err ctx) =
      pyCount (("### Error at").data) plan + 1
    unfold logErrorPlan
    cases hf : findFrom plan (("## Error Log").data) 0 with
    | none =>
      simp only [hf]
      rw [show rstrip plan ++ ("\n\n## Error Log").data ++ errorEntry ts err ctx
            = rstrip plan ++ (("\n\n## Error Log").data ++ errorEntry ts err ctx) from
          by simp]
      rw [pyCount_append_nospan hpat _ _
          (noSpan_head_newline hnl (by rfl))]
      rw [pyCount_append_nospan hpat _ _ (noSpan_head_newline hnl hehead)]
      rw [pyCount_rstrip hpat hlast, hentry]
      rw [show pyCount (("### Error at").data) (("\n\n## Error Log").data) = 0 from by decide]
    | some idx =>
      simp only [hf]
      cases hnh : findFrom plan (("\n## ").data) (idx + (("## Error Log").data).length) with
      | none =>
        simp only [hnh]
        rw [pyCount_append_nospan hpat _ _ (noSpan_head_newline hnl hehead)]
        rw [pyCount_rstrip hpat hlast, hentry]
      | some nh =>
        simp only [hnh]
        have hdropnl : (plan.drop nh).head? = some '\n' := by
          rcases findFrom_spec hnh with ⟨_, _, hpre⟩
          obtain ⟨t, ht⟩ := List.isPrefixOf_iff_prefix.mp hpre
          rw [← ht]
          rfl
        obtain ⟨d', hd'⟩ : ∃ d', plan.drop nh = '\n' :: d' := by
          cases hd : plan.drop nh with
          | nil => rw [hd] at hdropnl; cases hdropnl
          | cons c cs =>
            rw [hd] at hdropnl
            rw [List.head?_cons, Option.some_inj] at hdropnl
            subst hdropnl
            exact ⟨cs, rfl⟩
        have hplan_split : pyCount (("### Error at").data) plan =
            pyCount (("### Error at").data) (plan.take nh) +
              pyCount (("### Error at").data) d' := by
          conv_lhs => rw [show plan = plan.take nh ++ plan.drop nh from
            (List.take_append_drop nh plan).symm]
          rw [pyCount_append_nospan hpat _ _ (noSpan_head_newline hnl hdropnl)]
          rw [hd', pyCount_cons_nomatch hpat (not_prefix_of_head_ne (by decide))]
        rw [pyCount_append_nospan hpat _ _
          (noSpan_head_newline hnl (show ('\n' :: plan.drop nh).head? = some '\n' from rfl))]
        rw [pyCount_append_nospan hpat _ _ (noSpan_head_newline hnl hehead)]
        rw [pyCount_rstrip hpat hlast, hentry]
        rw [hd']
        rw [pyCount_cons_nomatch hpat (not_prefix_of_head_ne (by decide))]
        rw [pyCount_cons_nomatch hpat (not_prefix_of_head_ne (by decide))]
        rw [hplan_split]
        omega
  · simp [logErrorOp, hplan, logProgressOp]
  · intro h
    unfold containsSub at h
    unfold logErrorPlan
    cases hf : findFrom plan (("## Error Log").data) 0 with
    | none => simp only [hf]
    | some idx =>
      rw [hf] at h
      simp at h
  · intro idx nh hidx hnh
    unfold logErrorPlan
    simp only [hidx, hnh]

theorem c6_log_error_witness :
    (statusOf (logErrorPlan (("# P\n\n## Error Log\n\n## Notes\n").data)
        (("2024-01-01 12:00").data) (("Timeout").data) (("during fetch").data))).errors
      = (statusOf (("# P\n\n## Error Log\n\n## Notes\n").data)).errors + 1 :=
  (c6_log_error ⟨some (("# P\n\n## Error Log\n\n## Notes\n").data), none, none⟩
    (("# P\n\n## Error Log\n\n## Notes\n").data) (("2024-01-01 12:00").data)
    (("Timeout").data) (("during fetch").data) rfl (by decide)).2.1

/-! ## C8 -/

theorem foldl_min_le (l : List Nat) (a : Nat) : l.foldl min a ≤ a := by
  induction l generalizing a with
  | nil => exact le_rfl
  | cons x l ih =>
    rw [List.foldl_cons]
    exact le_trans (ih (min a x)) (min_le_left a x)

/-- C8 counterexample: on a document with trailing whitespace, the
append-new-section branch of `update_plan` shrinks the document and the
prior text does not survive as a prefix (its trailing whitespace run is
trimmed). -/
theorem c8_counterexample :
    (updatePlan (("x          ").data) (("S").data) []).1.length
        < (("x          ").data : Str).length
    ∧ (("x          ").data : Str).isPrefixOf
        (updatePlan (("x          ").data) (("S").data) []).1 = false := by
  constructor
  · decide
  · decide

/-- C8 (amended): every insertion splices at a computed position `p`,
producing `rstrip(text[:p]) ++ fragment ++ text[p:]`, so all pre-existing
content except the whitespace run trimmed at the insertion boundary is
preserved and `len(after) + len(trimmed run) = len(before) + len(fragment)`
— the document never shrinks when the trimmed run is no longer than the
inserted fragment, and for the append branches the prior body survives as
a prefix exactly when its trailing whitespace run is a prefix of the
appended fragment (which begins with two newlines). -/
theorem c8_insertion (text item sec con cat title fcon ts err ctx ph : Str) :
    (∀ (p : Nat) (frag : Str), p ≤ text.length →
      (rstrip (text.take p) ++ frag ++ text.drop p).length + (wsTail (text.take p)).length
        = text.length + frag.length)
  ∧ (∀ frag : Str, wsTail text <+: frag → text <+: rstrip text ++ frag)
  ∧ (∀ ps, ph ≠ [] → phaseStartPos text ph = some ps →
      addTodo text item (some ph) =
        some (rstrip (text.take (insertPosAfterPhase text ps)) ++
          ('\n' :: newItemStr item ++ ['\n']) ++ text.drop (insertPosAfterPhase text ps))
      ∧ insertPosAfterPhase text ps ≤ text.length)
  ∧ (ph ≠ [] → phaseStartPos text ph = none →
      addTodo text item (some ph) =
        some (rstrip text ++ (("\n\n### ").data ++ ph ++ '\n' :: newItemStr item ++ ['\n'])))
  ∧ (∀ c cs, containsSub text (("## Phases").data) = true → noPhaseCands text = c :: cs →
      addTodo text item none =
        some (rstrip (text.take (cs.foldl min c)) ++
          ('\n' :: newItemStr item ++ ['\n', '\n']) ++ text.drop (cs.foldl min c))
      ∧ cs.foldl min c ≤ text.length)
  ∧ (containsSub text (("## Phases").data) = false →
      addTodo text item none =
        some (rstrip text ++ (("\n\n## Tasks\n").data ++ newItemStr item ++ ['\n'])))
  ∧ (containsSub text (sectionMarker sec) = false →
      (updatePlan text sec con).1 =
        rstrip text ++ (("\n\n## ").data ++ sec ++ '\n' :: con ++ ['\n']))
  ∧ (containsSub text (sectionMarker cat) = false →
      saveFinding text title fcon cat ts =
        rstrip text ++ (("\n\n## ").data ++ cat ++ newFinding title fcon ts))
  ∧ (containsSub text (("## Error Log").data) = false →
      logErrorPlan text ts err ctx =
        rstrip text ++ (("\n\n## Error Log").data ++ errorEntry ts err ctx)) := by
  refine ⟨?_, ?_, ?_, ?_, ?_, ?_, ?_, ?_, ?_⟩
  · intro p frag hp
    have h1 := rstrip_length_add (text.take p)
    have h2 : (text.take p).length = p := by
      rw [List.length_take]
      omega
    simp only [List.length_append, List.length_drop]
    omega
  · intro frag hpre
    obtain ⟨t, ht⟩ := hpre
    conv_lhs => rw [← rstrip_wsTail text]
    rw [← ht, ← List.append_assoc]
    exact List.prefix_append _ t
  · intro ps hph hps
    constructor
    · simp only [addTodo, if_neg hph, hps, Option.some_inj]
      simp [List.append_assoc]
    · unfold insertPosAfterPhase
      cases h1 : findFrom text (("\n###").data) (ps + 1) with
      | some v =>
        simp only [h1, Option.toList_some]
        rcases findFrom_spec h1 with ⟨_, hle, _⟩
        cases h2 : findFrom text (("\n## ").data) (ps + 1) with
        | some w =>
          simp only [h2, Option.toList_some, List.cons_append, List.singleton_append]
          exact le_trans (foldl_min_le _ _) hle
        | none =>
          simp only [h2, Option.toList_none, List.append_nil]
          exact le_trans (foldl_min_le _ _) hle
      | none =>
        simp only [h1, Option.toList_none, List.nil_append]
        cases h2 : findFrom text (("\n## ").data) (ps + 1) with
        | some w =>
          simp only [h2, Option.toList_some]
          rcases findFrom_spec h2 with ⟨_, hle, _⟩
          exact le_trans (foldl_min_le _ _) hle
        | none =>
          simp only [h2, Option.toList_none]
          exact le_rfl
  · intro hph hps
    simp only [addTodo, if_neg hph, hps, Option.some_inj]
    simp [List.append_assoc]
  · intro c cs hsub hcands
    constructor
    · simp only [addTodo, addTodoNoPhase, if_pos hsub, hcands, Option.some_inj]
      simp [List.append_assoc]
    · have hc_le : c ≤ text.length := by
        have hmem : c ∈ noPhaseCands text := by
          rw [hcands]
          exact List.mem_cons_self _ _
        unfold noPhaseCands at hmem
        rcases List.mem_filter.mp hmem with ⟨hmem', _⟩
        rcases List.mem_append.mp hmem' with h' | h'
        · rcases List.mem_append.mp h' with h'' | h''
          · cases hn : findFrom text (("## Notes").data) 0 with
            | none => rw [hn] at h''; cases h''
            | some v =>
              rw [hn] at h''
              rcases List.mem_singleton.mp (by simpa using h'') with rfl
              exact (findFrom_spec hn).2.1
          · cases hn : findFrom text (("## Error Log").data) 0 with
            | none => rw [hn] at h''; cases h''
            | some v =>
              rw [hn] at h''
              rcases List.mem_singleton.mp (by simpa using h'') with rfl
              exact (findFrom_spec hn).2.1
        · rcases List.mem_singleton.mp h' with rfl
          exact le_rfl
      exact le_trans (foldl_min_le _ _) hc_le
  · intro hsub
    simp only [addTodo, addTodoNoPhase,
      if_neg (show ¬ containsSub text (("## Phases").data) = true from by
        rw [hsub]; exact Bool.false_ne_true)]
    simp [List.append_assoc]
  · intro h
    unfold containsSub at h
    unfold updatePlan
    cases hf : findFrom text (sectionMarker sec) 0 with
    | none =>
      simp only [hf]
      simp [List.append_assoc]
    | some idx =>
      rw [hf] at h
      simp at h
  · intro h
    unfold containsSub at h
    unfold saveFinding
    cases hf : findFrom text (sectionMarker cat) 0 with
    | none =>
      simp only [hf]
      simp [List.append_assoc]
    | some idx =>
      rw [hf] at h
      simp at h
  · intro h
    unfold containsSub at h
    unfold logErrorPlan
    cases hf : findFrom text (("## Error Log").data) 0 with
    | none =>
      simp only [hf]
      simp [List.append_assoc]
    | some idx =>
      rw [hf] at h
      simp at h

theorem c8_insertion_witness :
    addTodo (("body\n").data) (("x").data) none =
      some (rstrip (("body\n").data) ++
        (("\n\n## Tasks\n").data ++ newItemStr (("x").data) ++ ['\n'])) :=
  ((c8_insertion (("body\n").data) (("x").data) [] [] [] [] [] [] [] [] []).2.2.2.2.2.1)
    (by decide)

/-! ## C9 -/

theorem findFromAux_min {pat : Str} :
    ∀ (s : Str) (o i : Nat), findFromAux pat o s = some i →
      ∀ j, o ≤ j → j < i → pat.isPrefixOf (s.drop (j - o)) = false := by
  intro s
  induction s with
  | nil =>
    intro o i h j hj1 hj2
    unfold findFromAux at h
    by_cases hp : pat.isPrefixOf [] = true
    · rw [if_pos hp] at h
      cases h
      omega
    · rw [if_neg hp] at h
      cases h
  | cons c rest ih =>
    intro o i h j hj1 hj2
    unfold findFromAux at h
    by_cases hp : pat.isPrefixOf (c :: rest) = true
    · rw [if_pos hp] at h
      cases h
      omega
    · rw [if_neg hp] at h
      by_cases hje : j = o
      · subst hje
        rw [Nat.sub_self, List.drop_zero]
        cases h2 : pat.isPrefixOf (c :: rest) with
        | false => rfl
        | true => exact absurd h2 hp
      · have := ih (o + 1) i h j (by omega) hj2
        rw [show j - o = (j - (o + 1)) + 1 from by omega, List.drop_succ_cons]
        exact this

theorem findFrom_min {hay pat : Str} {i : Nat} (h : findFrom hay pat 0 = some i) :
    ∀ j, j < i → pat.isPrefixOf (hay.drop j) = false := by
  intro j hj
  unfold findFrom at h
  rw [if_pos (Nat.zero_le _)] at h
  have := findFromAux_min (hay.drop 0) 0 i h j (Nat.zero_le j) hj
  simpa using this

theorem fuzzyPhaseFuel_spec {ph : Str} :
    ∀ (fuel o p : Nat) (s : Str), fuzzyPhaseFuel ph fuel o s = some p →
      ∃ k, p = o + k ∧ k ≤ s.length ∧ lineMatch (s.drop k) ph = true := by
  intro fuel
  induction fuel with
  | zero => intro o p s h; cases h
  | succ n ih =>
    intro o p s h
    unfold fuzzyPhaseFuel at h
    by_cases hm : lineMatch s ph = true
    · rw [if_pos hm] at h
      cases h
      exact ⟨0, by omega, Nat.zero_le _, by simpa using hm⟩
    · rw [if_neg hm] at h
      cases heq : s.drop ((s.takeWhile fun c => c ≠ '\n').length) with
      | nil => rw [heq] at h; cases h
      | cons x rest =>
        rw [heq] at h
        rcases ih _ _ _ h with ⟨k', hk1, hk2, hk3⟩
        have htk : (s.takeWhile fun c => c ≠ '\n').length < s.length := by
          have h1 := congrArg List.length heq
          simp only [List.length_drop, List.length_cons] at h1
          omega
        have hrest : s.drop ((s.takeWhile fun c => c ≠ '\n').length + 1) = rest := by
          rw [← List.drop_drop, heq]
          rfl
        refine ⟨(s.takeWhile fun c => c ≠ '\n').length + 1 + k', by omega, ?_, ?_⟩
        · have h1 := congrArg List.length heq
          simp only [List.length_drop, List.length_cons] at h1
          omega
        · rw [← List.drop_drop, hrest]
          exact hk3

theorem fuzzyPhasePos_lineMatch {content ph : Str} {p : Nat}
    (h : fuzzyPhasePos content ph = some p) :
    p ≤ content.length ∧ lineMatch (content.drop p) ph = true := by
  rcases fuzzyPhaseFuel_spec _ _ _ _ h with ⟨k, hk1, hk2, hk3⟩
  subst hk1
  exact ⟨by omega, by simpa using hk3⟩

/-- C9 counterexample: with plan text `"- [ ] see ### Foo here\nmore"`
(which contains no level-3 heading at all), `add_todo("x", "Foo")` matches
the mid-line literal substring `### Foo` and inserts the item at document
end without creating any heading — the claim instead predicts that, with no
matching heading, a new `### Foo` heading is appended followed by the item. -/
theorem c9_counterexample :
    addTodo (("- [ ] see ### Foo here\nmore").data) (("x").data) (some (("Foo").data))
      = some (("- [ ] see ### Foo here\nmore\n- [ ] x\n").data)
    ∧ addTodo (("- [ ] see ### Foo here\nmore").data) (("x").data) (some (("Foo").data))
      ≠ some (rstrip (("- [ ] see ### Foo here\nmore").data) ++
          ("\n\n### Foo\n- [ ] x\n").data) := by
  constructor
  · decide
  · decide

/-- C9 (amended): with a phase argument, `add_todo` first looks for the
literal substring `### {phase}` anywhere in the document (its first
occurrence need not be a heading line and may fall inside a longer heading
title); failing that, it searches for the earliest line start matching
`^###\s+.*{phase}` case-insensitively; in either case the new line is
inserted before the earlier of the next `"\n###"` and `"\n## "` occurrence
after the match (defaulting to document end, with the surrounding
whitespace run trimmed), and a new `### {phase}` heading plus item is
appended only when both searches fail.  Without a phase, if `## Phases`
occurs anywhere, the item is inserted before the earliest positive-position
occurrence of `## Notes` or `## Error Log` anywhere in the document
(independently of where `## Phases` sits; an occurrence at position 0 is
ignored), else a new `## Tasks` section is appended. -/
theorem c9_add_todo (text item ph : Str) (hph : ph ≠ []) :
    (∀ p, findFrom text (phaseMarker ph) 0 = some p →
        (∀ j, j < p → (phaseMarker ph).isPrefixOf (text.drop j) = false)
      ∧ (phaseMarker ph).isPrefixOf (text.drop p) = true
      ∧ addTodo text item (some ph) =
          some (rstrip (text.take (insertPosAfterPhase text p)) ++
            '\n' :: newItemStr item ++ '\n' :: text.drop (insertPosAfterPhase text p)))
  ∧ (∀ p, findFrom text (phaseMarker ph) 0 = none → fuzzyPhasePos text ph = some p →
        lineMatch (text.drop p) ph = true
      ∧ addTodo text item (some ph) =
          some (rstrip (text.take (insertPosAfterPhase text p)) ++
            '\n' :: newItemStr item ++ '\n' :: text.drop (insertPosAfterPhase text p)))
  ∧ (findFrom text (phaseMarker ph) 0 = none → fuzzyPhasePos text ph = none →
      addTodo text item (some ph) =
        some (rstrip text ++ ("\n\n### ").data ++ ph ++ '\n' :: newItemStr item ++ ['\n']))
  ∧ (∀ p v w, findFrom text (("\n###").data) (p + 1) = some v →
      findFrom text (("\n## ").data) (p + 1) = some w →
      insertPosAfterPhase text p = min v w)
  ∧ (∀ p v, findFrom text (("\n###").data) (p + 1) = some v →
      findFrom text (("\n## ").data) (p + 1) = none → insertPosAfterPhase text p = v)
  ∧ (∀ p w, findFrom text (("\n###").data) (p + 1) = none →
      findFrom text (("\n## ").data) (p + 1) = some w → insertPosAfterPhase text p = w)
  ∧ (∀ p, findFrom text (("\n###").data) (p + 1) = none →
      findFrom text (("\n## ").data) (p + 1) = none →
      insertPosAfterPhase text p = text.length)
  ∧ (∀ c cs, containsSub text (("## Phases").data) = true → noPhaseCands text = c :: cs →
      addTodo text item none =
        some (rstrip (text.take (cs.foldl min c)) ++
          '\n' :: newItemStr item ++ '\n' :: '\n' :: text.drop (cs.foldl min c)))
  ∧ (containsSub text (("## Phases").data) = false →
      addTodo text item none =
        some (rstrip text ++ ("\n\n## Tasks\n").data ++ newItemStr item ++ ['\n'])) := by
  refine ⟨?_, ?_, ?_, ?_, ?_, ?_, ?_, ?_, ?_⟩
  · intro p hp
    refine ⟨findFrom_min hp, (findFrom_spec hp).2.2, ?_⟩
    simp only [addTodo, if_neg hph, phaseStartPos, hp]
  · intro p hp hfz
    refine ⟨(fuzzyPhasePos_lineMatch hfz).2, ?_⟩
    simp only [addTodo, if_neg hph, phaseStartPos, hp, hfz]
  · intro hp hfz
    simp only [addTodo, if_neg hph, phaseStartPos, hp, hfz]
  · intro p v w h1 h2
    unfold insertPosAfterPhase
    simp only [h1, h2, Option.toList_some]
    simp [min_comm]
  · intro p v h1 h2
    unfold insertPosAfterPhase
    simp only [h1, h2, Option.toList_some, Option.toList_none]
    simp
  · intro p w h1 h2
    unfold insertPosAfterPhase
    simp only [h1, h2, Option.toList_some, Option.toList_none]
    simp
  · intro p h1 h2
    unfold insertPosAfterPhase
    simp only [h1, h2, Option.toList_none]
    rfl
  · intro c cs hsub hcands
    simp only [addTodo, addTodoNoPhase, if_pos hsub, hcands]
  · intro hsub
    simp only [addTodo, addTodoNoPhase,
      if_neg (show ¬ containsSub text (("## Phases").data) = true from by
        rw [hsub]; exact Bool.false_ne_true)]

theorem c9_add_todo_witness :
    addTodo (("- [ ] see ### Foo here\nmore").data) (("x").data) (some (("Foo").data))
      = some (rstrip ((("- [ ] see ### Foo here\nmore").data : Str).take
            (insertPosAfterPhase (("- [ ] see ### Foo here\nmore").data) 10)) ++
          '\n' :: newItemStr (("x").data) ++
          '\n' :: (("- [ ] see ### Foo here\nmore").data : Str).drop
            (insertPosAfterPhase (("- [ ] see ### Foo here\nmore").data) 10)) :=
  (((c9_add_todo (("- [ ] see ### Foo here\nmore").data) (("x").data) (("Foo").data)
      (by decide)).1) 10 (by decide)).2.2

end NewellePlanning
